import Mathlib

/-!
Bundle (linked list of bundle entries): embedding of `bundle_linked.h`.

A shallow embedding of `BundleEntry` and `Bundle` from
`ModifiedLevelDB/include/leveldb/bundle_linked.h`, executed sequentially.

* Memory is a list of entries; an address is an index into it and `new`
  appends at the end. A pointer is `Option Addr`, `none` being `nullptr`.
* `timestamp_t` and the two sentinels `BUNDLE_NULL_TIMESTAMP` and
  `BUNDLE_PENDING_TIMESTAMP` are declared in `common_bundle.h`, which is not
  part of the sources at hand: timestamps are integers (they are only ever
  compared) and the sentinels are parameters (`Sentinels`).
* Every loop is bounded by a fuel argument; `Outcome.timeout` says that the
  bound was reached. A busy-wait whose condition cannot change (no other
  thread runs) reaches it for every fuel.
* `assert` is active (no `NDEBUG`) and the blocks under `#ifdef BUNDLE_DEBUG`
  are not compiled (the macro is not defined by this header).
-/

namespace BundleLinked

/-- Timestamps: `timestamp_t` of `common_bundle.h`, only ever compared. -/
abbrev timestamp_t := Int

/-- Address of a `BundleEntry` in memory. -/
abbrev Addr := Nat

/-- The payload pointer `NodeType *`; `none` is `nullptr`. It is never dereferenced. -/
abbrev NodePtr := Option Nat

/-- The two sentinel timestamps of `common_bundle.h`, taken as parameters. -/
structure Sentinels where
  BUNDLE_NULL_TIMESTAMP : timestamp_t
  BUNDLE_PENDING_TIMESTAMP : timestamp_t
deriving DecidableEq, Repr

/-- Fields of `class BundleEntry` (`ptr_` is inherited from `BundleEntryBase`). -/
structure BundleEntry where
  ts_ : timestamp_t
  ptr_ : NodePtr
  next_ : Option Addr
  deleted_ts_ : timestamp_t
deriving DecidableEq, Repr

/-- Result of running a member function on a state of type `σ`. -/
inductive Outcome (σ α : Type) where
  /-- the call returned `val`, leaving the state `post` -/
  | ok (val : α) (post : σ)
  /-- a failed `assert` or `exit(1)`: the process stopped in state `post` -/
  | abort (post : σ)
  /-- a null or unallocated pointer was dereferenced -/
  | fault
  /-- the loop bound was reached -/
  | timeout
deriving DecidableEq, Repr

/-- The value returned, when the call returned. -/
def Outcome.returned {σ α : Type} : Outcome σ α → Option α
  | .ok v _ => some v
  | _ => none

namespace BundleEntry

/-- Constructor `BundleEntry(ts, ptr, next)`: `deleted_ts_` starts as the NULL timestamp. -/
def ctor (c : Sentinels) (ts : timestamp_t) (ptr : NodePtr) (next : Option Addr) : BundleEntry :=
  { ts_ := ts, ptr_ := ptr, next_ := next, deleted_ts_ := c.BUNDLE_NULL_TIMESTAMP }

/-- Member `set_ts`. -/
def set_ts (self : BundleEntry) (ts : timestamp_t) : BundleEntry := { self with ts_ := ts }

/-- Member `set_ptr`. -/
def set_ptr (self : BundleEntry) (ptr : NodePtr) : BundleEntry := { self with ptr_ := ptr }

/-- Member `set_next`. -/
def set_next (self : BundleEntry) (next : Option Addr) : BundleEntry := { self with next_ := next }

/-- Member `mark`: `deleted_ts_ = ts`. -/
def mark (self : BundleEntry) (ts : timestamp_t) : BundleEntry := { self with deleted_ts_ := ts }

/-- Member `marked`: returns `deleted_ts_`. -/
def marked (self : BundleEntry) : timestamp_t := self.deleted_ts_

/-- Member `validate` of the entry at address `self` in memory `mem`:
`if (ts_ < next_->ts_) exit(1)`. -/
def validate (mem : List BundleEntry) (self : Addr) : Outcome (List BundleEntry) Unit :=
  match mem[self]? with
  | none => .fault
  | some e =>
    match e.next_ with
    | none => .fault
    | some n =>
      match mem[n]? with
      | none => .fault
      | some s => if e.ts_ < s.ts_ then .abort mem else .ok () mem

end BundleEntry

/-- State of a `Bundle` object together with the memory holding its entries. -/
structure Bundle where
  mem : List BundleEntry
  head_ : Option Addr
  tail_ : Option Addr
deriving DecidableEq, Repr

namespace Bundle

/-- Read through a pointer: `none` for `nullptr` and for an unallocated address. -/
def deref (b : Bundle) (p : Option Addr) : Option BundleEntry :=
  match p with
  | none => none
  | some a => b.mem[a]?

/-- Member `init`: `tail_ = new BundleEntry(NULL, nullptr, nullptr); head_ = tail_`. -/
def init (c : Sentinels) (b : Bundle) : Bundle :=
  let tail := b.mem.length
  { mem := b.mem ++ [BundleEntry.ctor c c.BUNDLE_NULL_TIMESTAMP none none],
    head_ := some tail,
    tail_ := some tail }

/-- The busy-wait `while (p->ts_ == BUNDLE_PENDING_TIMESTAMP) CPU_RELAX;` -/
def spinWhilePending (c : Sentinels) (b : Bundle) (p : Option Addr) : Nat → Outcome Bundle Unit
  | 0 => .timeout
  | fuel + 1 =>
    match b.deref p with
    | none => .fault
    | some e =>
      if e.ts_ = c.BUNDLE_PENDING_TIMESTAMP then spinWhilePending c b p fuel else .ok () b

/-- The `while (true)` loop of `prepare`, for the entry allocated at `new_entry`. -/
def prepareLoop (c : Sentinels) (new_entry : Addr) : Nat → Bundle → Outcome Bundle Unit
  | 0, _ => .timeout
  | fuel + 1, b =>
    -- expected = head_;
    let expected := b.head_
    -- new_entry->next_ = expected;
    match b.mem[new_entry]? with
    | none => .fault
    | some e =>
      let b1 : Bundle := { b with mem := b.mem.set new_entry { e with next_ := expected } }
      -- while (expected->ts_ == BUNDLE_PENDING_TIMESTAMP) CPU_RELAX;
      match spinWhilePending c b1 expected fuel with
      | .ok _ b2 =>
        -- if (head_.compare_exchange_weak(expected, new_entry)) return;
        if b2.head_ = expected then .ok () { b2 with head_ := some new_entry }
        else prepareLoop c new_entry fuel b2
      | .abort s => .abort s
      | .fault => .fault
      | .timeout => .timeout

/-- Member `prepare`: allocate `BundleEntry(PENDING, ptr, nullptr)` and link it at the head. -/
def prepare (c : Sentinels) (fuel : Nat) (b : Bundle) (ptr : NodePtr) : Outcome Bundle Unit :=
  let new_entry := b.mem.length
  let b1 : Bundle :=
    { b with mem := b.mem ++ [BundleEntry.ctor c c.BUNDLE_PENDING_TIMESTAMP ptr none] }
  prepareLoop c new_entry fuel b1

/-- Member `finalize`: `entry = head_; assert(entry->ts_ == PENDING); entry->ts_ = ts`. -/
def finalize (c : Sentinels) (b : Bundle) (ts : timestamp_t) : Outcome Bundle Unit :=
  match b.head_ with
  | none => .fault
  | some entry =>
    match b.mem[entry]? with
    | none => .fault
    | some e =>
      if e.ts_ = c.BUNDLE_PENDING_TIMESTAMP then
        .ok () { b with mem := b.mem.set entry { e with ts_ := ts } }
      else .abort b

/-- The traversal `while (curr != tail_ && curr->ts_ > ts) { assert(curr->ts_ != NULL);
curr = curr->next_; }` of `getPtrByTimestamp`; the value is `curr` at loop exit. -/
def walk (c : Sentinels) (b : Bundle) (ts : timestamp_t) :
    Nat → Option Addr → Outcome Bundle (Option Addr)
  | 0, _ => .timeout
  | fuel + 1, curr =>
    if curr = b.tail_ then .ok curr b
    else
      match b.deref curr with
      | none => .fault
      | some e =>
        if e.ts_ > ts then
          if e.ts_ ≠ c.BUNDLE_NULL_TIMESTAMP then walk c b ts fuel e.next_ else .abort b
        else .ok curr b

/-- The two loops of `getPtrByTimestamp`: the value is the entry `curr` whose `ptr_` is
returned. -/
def getPtrByTimestamp_curr (c : Sentinels) (fuel : Nat) (b : Bundle) (ts : timestamp_t) :
    Outcome Bundle (Option Addr) :=
  -- curr = head_;
  let curr := b.head_
  -- while (curr->ts_ == BUNDLE_PENDING_TIMESTAMP) CPU_RELAX;
  match spinWhilePending c b curr fuel with
  | .ok _ b1 => walk c b1 ts fuel curr
  | .abort s => .abort s
  | .fault => .fault
  | .timeout => .timeout

/-- Member `getPtrByTimestamp`: `return curr->ptr_` for the entry found by the two loops. -/
def getPtrByTimestamp (c : Sentinels) (fuel : Nat) (b : Bundle) (ts : timestamp_t) :
    Outcome Bundle NodePtr :=
  match getPtrByTimestamp_curr c fuel b ts with
  | .ok curr b1 =>
    match b1.deref curr with
    | none => .fault
    | some e => .ok e.ptr_ b1
  | .abort s => .abort s
  | .fault => .fault
  | .timeout => .timeout

/-- The entries of the chain, with their addresses: follow `next_` from `curr` up to and
including `tail_` (the order in which the destructor and the readers visit them). -/
def chainFrom (b : Bundle) : Nat → Option Addr → Option (List (Addr × BundleEntry))
  | 0, _ => none
  | fuel + 1, curr =>
    match curr with
    | none => none
    | some a =>
      match b.mem[a]? with
      | none => none
      | some e =>
        if curr = b.tail_ then some [(a, e)]
        else (chainFrom b fuel e.next_).map (fun l => (a, e) :: l)

/-- The chain of the bundle, from `head_` to `tail_`. -/
def chain (b : Bundle) (fuel : Nat) : Option (List (Addr × BundleEntry)) :=
  b.chainFrom fuel b.head_

end Bundle

/-- A call of one of the three operations of the publish/read protocol. -/
inductive Call where
  | prepare (ptr : NodePtr)
  | finalize (ts : timestamp_t)
  | getPtrByTimestamp (ts : timestamp_t)
deriving DecidableEq, Repr

namespace Bundle

/-- Run one call; the value is the pointer returned by a read. -/
def call (c : Sentinels) (fuel : Nat) (b : Bundle) : Call → Outcome Bundle (Option NodePtr)
  | .prepare ptr =>
    match prepare c fuel b ptr with
    | .ok _ s => .ok none s
    | .abort s => .abort s
    | .fault => .fault
    | .timeout => .timeout
  | .finalize ts =>
    match finalize c b ts with
    | .ok _ s => .ok none s
    | .abort s => .abort s
    | .fault => .fault
    | .timeout => .timeout
  | .getPtrByTimestamp ts =>
    match getPtrByTimestamp c fuel b ts with
    | .ok p s => .ok (some p) s
    | .abort s => .abort s
    | .fault => .fault
    | .timeout => .timeout

/-- Run a sequence of calls one after the other, stopping at the first that does not return. -/
def run (c : Sentinels) (fuel : Nat) : Bundle → List Call → Outcome Bundle Unit
  | b, [] => .ok () b
  | b, k :: rest =>
    match call c fuel b k with
    | .ok _ s => run c fuel s rest
    | .abort s => .abort s
    | .fault => .fault
    | .timeout => .timeout

end Bundle

/-- The calls `prepare(p); finalize(t)` for each pair `(p, t)`, in order. -/
def commitCalls : List (NodePtr × timestamp_t) → List Call
  | [] => []
  | (p, t) :: rest => Call.prepare p :: Call.finalize t :: commitCalls rest

/-- A bundle object before `init`, with nothing allocated. -/
def Bundle.fresh : Bundle := { mem := [], head_ := none, tail_ := none }

/-- Sentinel values used in the concrete examples. -/
def exampleSentinels : Sentinels :=
  { BUNDLE_NULL_TIMESTAMP := 0, BUNDLE_PENDING_TIMESTAMP := 1000 }

namespace Bundle

/-- State after `prepare(ptr); finalize(ts)` on a state whose head is not pending. -/
def committed (c : Sentinels) (b : Bundle) (ptr : NodePtr) (ts : timestamp_t) : Bundle :=
  { mem := b.mem ++ [{ ts_ := ts, ptr_ := ptr, next_ := b.head_,
                       deleted_ts_ := c.BUNDLE_NULL_TIMESTAMP }],
    head_ := some b.mem.length,
    tail_ := b.tail_ }

/-- Layout of a bundle whose tail was allocated at address `L` by `init` and on which the
pairs `(p, t)` of `pairs` were then committed in order: the entry of the pair of index `i`
sits at address `L + i + 1` and links to address `L + i`. -/
structure Built (c : Sentinels) (b : Bundle) (L : Nat)
    (pairs : List (NodePtr × timestamp_t)) : Prop where
  tail_eq : b.tail_ = some L
  head_eq : b.head_ = some (L + pairs.length)
  len_eq : b.mem.length = L + pairs.length + 1
  tail_entry : b.mem[L]? = some (BundleEntry.ctor c c.BUNDLE_NULL_TIMESTAMP none none)
  entry : ∀ i p t, pairs[i]? = some (p, t) →
    b.mem[L + i + 1]? = some { ts_ := t, ptr_ := p, next_ := some (L + i),
                               deleted_ts_ := c.BUNDLE_NULL_TIMESTAMP }

end Bundle

/-- Layout of a bundle whose tail was allocated at address `L` by `init` and on which `n`
calls of `prepare` have returned since: the entries sit at the addresses `L .. L + n`, each
links to the address just below it, and all of them but the head are finalized. -/
structure Bundle.Stacked (c : Sentinels) (b : Bundle) (L n : Nat) : Prop where
  tail_eq : b.tail_ = some L
  head_eq : b.head_ = some (L + n)
  len_eq : b.mem.length = L + n + 1
  link : ∀ i, i < n → ∃ e, b.mem[L + i + 1]? = some e ∧ e.next_ = some (L + i)
  final : ∀ i, i < n → ∃ e, b.mem[L + i]? = some e ∧ e.ts_ ≠ c.BUNDLE_PENDING_TIMESTAMP

/-- The chain expected from address `L + k` down to the tail in a bundle laid out as
`Bundle.Built` describes. -/
def builtChain (c : Sentinels) (L : Nat) (pairs : List (NodePtr × timestamp_t)) :
    Nat → List (Addr × BundleEntry)
  | 0 => [(L, BundleEntry.ctor c c.BUNDLE_NULL_TIMESTAMP none none)]
  | k + 1 =>
    match pairs[k]? with
    | some (p, t) =>
      (L + k + 1, { ts_ := t, ptr_ := p, next_ := some (L + k),
                    deleted_ts_ := c.BUNDLE_NULL_TIMESTAMP }) :: builtChain c L pairs k
    | none => builtChain c L pairs k

/-- The timestamps of the pairs are real: none is a sentinel. -/
def RealTimestamps (c : Sentinels) (pairs : List (NodePtr × timestamp_t)) : Prop :=
  ∀ pt ∈ pairs, pt.2 ≠ c.BUNDLE_NULL_TIMESTAMP ∧ pt.2 ≠ c.BUNDLE_PENDING_TIMESTAMP

/-- The timestamps of the pairs are strictly increasing. -/
def StrictlyIncreasing (pairs : List (NodePtr × timestamp_t)) : Prop :=
  pairs.Pairwise (fun x y => x.2 < y.2)

/-- The state after `init; prepare(A); finalize(10); prepare(B)` on a fresh bundle with the
example sentinels: the head is pending. -/
def examplePendingState : Bundle :=
  { mem := [{ ts_ := 0, ptr_ := none, next_ := none, deleted_ts_ := 0 },
            { ts_ := 10, ptr_ := some 1, next_ := some 0, deleted_ts_ := 0 },
            { ts_ := 1000, ptr_ := some 2, next_ := some 1, deleted_ts_ := 0 }],
    head_ := some 2,
    tail_ := some 0 }

/-- The state `examplePendingState` after `finalize(5)`: the head carries a timestamp below
the one of its successor. -/
def exampleOutOfOrderState : Bundle :=
  { mem := [{ ts_ := 0, ptr_ := none, next_ := none, deleted_ts_ := 0 },
            { ts_ := 10, ptr_ := some 1, next_ := some 0, deleted_ts_ := 0 },
            { ts_ := 5, ptr_ := some 2, next_ := some 1, deleted_ts_ := 0 }],
    head_ := some 2,
    tail_ := some 0 }

/-- The state after `init; prepare(A); finalize(10); prepare(B); finalize(20); prepare(C);
finalize(30)` on a fresh bundle with the example sentinels. -/
def exampleThreeCommits : Bundle :=
  { mem := [{ ts_ := 0, ptr_ := none, next_ := none, deleted_ts_ := 0 },
            { ts_ := 10, ptr_ := some 1, next_ := some 0, deleted_ts_ := 0 },
            { ts_ := 20, ptr_ := some 2, next_ := some 1, deleted_ts_ := 0 },
            { ts_ := 30, ptr_ := some 3, next_ := some 2, deleted_ts_ := 0 }],
    head_ := some 3,
    tail_ := some 0 }

/-- The entry with its retirement marker overwritten by a fixed value. -/
def BundleEntry.eraseDeleted (e : BundleEntry) : BundleEntry := { e with deleted_ts_ := 0 }

/-- The bundle with the retirement marker of every entry overwritten by a fixed value: two
states are identical except for their `deleted_ts_` fields when this makes them equal. -/
def Bundle.eraseDeleted (b : Bundle) : Bundle :=
  { b with mem := b.mem.map BundleEntry.eraseDeleted }

/-- The outcome with its state transformed by `f`. -/
def Outcome.mapPost {σ α : Type} (f : σ → σ) : Outcome σ α → Outcome σ α
  | .ok v s => .ok v (f s)
  | .abort s => .abort (f s)
  | .fault => .fault
  | .timeout => .timeout

/-- The loop of the destructor followed by its final `delete tail_`, from `curr`:
`while (curr != tail_) { next = curr->next_; delete curr; curr = next; } delete tail_;`.
The state is the list of the addresses passed to `delete` so far, in order. Reading through
a null, unallocated or released pointer is a fault, and so is deleting an unallocated or
already released entry; `delete` of a null pointer does nothing. -/
def Bundle.destructorLoop (b : Bundle) :
    Nat → Option Addr → List Addr → Outcome (List Addr) Unit
  | 0, _, _ => .timeout
  | fuel + 1, curr, released =>
    if curr = b.tail_ then
      -- delete tail_;
      match b.tail_ with
      | none => .ok () released
      | some t =>
        if t < b.mem.length ∧ t ∉ released then .ok () (released ++ [t]) else .fault
    else
      match curr with
      | none => .fault
      | some a =>
        if a ∈ released then .fault
        else
          match b.mem[a]? with
          | none => .fault
          | some e =>
            -- next = curr->next_; delete curr; curr = next;
            destructorLoop b fuel e.next_ (released ++ [a])

/-- Destructor `~Bundle`: `curr = head_`, then the loop and `delete tail_`. -/
def Bundle.destructor (b : Bundle) (fuel : Nat) : Outcome (List Addr) Unit :=
  b.destructorLoop fuel b.head_ []

/-- The addresses `L + k, ..., L + 1, L`, in that order. -/
def addrsDown (L : Nat) : Nat → List Nat
  | 0 => [L]
  | k + 1 => (L + k + 1) :: addrsDown L k

/-- The entry a read at `q` is specified to select in a chain listed from head to tail: the
first entry, counted from the head, that is not the tail and has `ts_ ≤ q`, and the tail
when no such entry exists. -/
def firstNotNewer (q : timestamp_t) (l : List (Addr × BundleEntry)) :
    Option (Addr × BundleEntry) :=
  match l.dropLast.find? (fun x => decide (x.2.ts_ ≤ q)) with
  | some x => some x
  | none => l.getLast?

/-- Every timestamp passed to `finalize` in `calls` is real: none is a sentinel. -/
def RealCalls (c : Sentinels) (calls : List Call) : Prop :=
  ∀ ts, Call.finalize ts ∈ calls →
    ts ≠ c.BUNDLE_NULL_TIMESTAMP ∧ ts ≠ c.BUNDLE_PENDING_TIMESTAMP

/-- Every entry allocated above the tail (addresses `L + 1 .. L + n`) carries a `ts_`
different from the NULL timestamp. -/
def Bundle.NoNullAbove (c : Sentinels) (b : Bundle) (L n : Nat) : Prop :=
  ∀ i, i < n → ∃ e, b.mem[L + i + 1]? = some e ∧ e.ts_ ≠ c.BUNDLE_NULL_TIMESTAMP

/-- The state after `init; prepare(A); finalize(-7); prepare(B); finalize(-3)` on a fresh
bundle with the example sentinels: both timestamps lie below the NULL timestamp 0. -/
def exampleNegativeCommits : Bundle :=
  { mem := [{ ts_ := 0, ptr_ := none, next_ := none, deleted_ts_ := 0 },
            { ts_ := -7, ptr_ := some 1, next_ := some 0, deleted_ts_ := 0 },
            { ts_ := -3, ptr_ := some 2, next_ := some 1, deleted_ts_ := 0 }],
    head_ := some 2,
    tail_ := some 0 }

/-- The state after `init; prepare(A); finalize(0); prepare(B); finalize(5)` on a fresh
bundle with the example sentinels: the first timestamp is the NULL timestamp 0. -/
def exampleNullCommit : Bundle :=
  { mem := [{ ts_ := 0, ptr_ := none, next_ := none, deleted_ts_ := 0 },
            { ts_ := 0, ptr_ := some 1, next_ := some 0, deleted_ts_ := 0 },
            { ts_ := 5, ptr_ := some 2, next_ := some 1, deleted_ts_ := 0 }],
    head_ := some 2,
    tail_ := some 0 }

end BundleLinked

/-! # Theorems -/

namespace BundleLinked

namespace Bundle

/-! ## The busy-wait -/

theorem spin_of_final (c : Sentinels) (b : Bundle) (p : Option Addr) (e : BundleEntry)
    (fuel : Nat) (hp : b.deref p = some e) (he : e.ts_ ≠ c.BUNDLE_PENDING_TIMESTAMP) :
    spinWhilePending c b p (fuel + 1) = .ok () b := by
  simp [spinWhilePending, hp, he]

theorem spin_of_pending (c : Sentinels) (b : Bundle) (p : Option Addr) (e : BundleEntry)
    (hp : b.deref p = some e) (he : e.ts_ = c.BUNDLE_PENDING_TIMESTAMP) (fuel : Nat) :
    spinWhilePending c b p fuel = .timeout := by
  induction fuel with
  | zero => rfl
  | succ n ih => simp [spinWhilePending, hp, he, ih]

theorem spin_ok_inv (c : Sentinels) (b b1 : Bundle) (p : Option Addr) (u : Unit) (fuel : Nat)
    (h : spinWhilePending c b p fuel = .ok u b1) :
    b1 = b ∧ ∃ e, b.deref p = some e ∧ e.ts_ ≠ c.BUNDLE_PENDING_TIMESTAMP := by
  induction fuel with
  | zero => simp [spinWhilePending] at h
  | succ n ih =>
    unfold spinWhilePending at h
    cases hp : b.deref p with
    | none => simp [hp] at h
    | some e =>
      simp only [hp] at h
      by_cases he : e.ts_ = c.BUNDLE_PENDING_TIMESTAMP
      · simp only [he, if_true] at h
        exact ⟨(ih h).1, e, rfl, by
          obtain ⟨e1, h1, h2⟩ := (ih h).2
          rw [hp] at h1
          cases h1
          exact h2⟩
      · simp only [he, if_false] at h
        cases h
        exact ⟨rfl, e, rfl, he⟩

theorem spin_never_abort (c : Sentinels) (b s : Bundle) (p : Option Addr) (fuel : Nat) :
    spinWhilePending c b p fuel ≠ .abort s := by
  induction fuel with
  | zero => simp [spinWhilePending]
  | succ n ih =>
    unfold spinWhilePending
    cases hp : b.deref p with
    | none => simp
    | some e =>
      by_cases he : e.ts_ = c.BUNDLE_PENDING_TIMESTAMP
      · simpa [he] using ih
      · simp [he]

/-! ## prepare and finalize in closed form -/

theorem prepare_eq (c : Sentinels) (b : Bundle) (ptr : NodePtr) (e : BundleEntry) (fuel : Nat)
    (hp : b.deref b.head_ = some e) (he : e.ts_ ≠ c.BUNDLE_PENDING_TIMESTAMP) :
    prepare c (fuel + 2) b ptr
      = .ok () (committed c b ptr c.BUNDLE_PENDING_TIMESTAMP) := by
  cases hh : b.head_ with
  | none => simp [hh, deref] at hp
  | some h =>
    rw [hh] at hp
    have hlt : h < b.mem.length := by
      simp only [deref] at hp
      exact (List.getElem?_eq_some.mp hp).1
    simp only [prepare, prepareLoop, BundleEntry.ctor, List.getElem?_concat_length, hh]
    rw [List.set_append_right _ _ (Nat.le_refl _)]
    simp only [Nat.sub_self, List.set_cons_zero]
    rw [spin_of_final c _ (some h) e fuel ?_ he]
    · simp [committed, hh]
    · simp only [deref] at hp ⊢
      rw [List.getElem?_append_left hlt]; exact hp

theorem finalize_committed (c : Sentinels) (b : Bundle) (ptr : NodePtr) (ts : timestamp_t) :
    finalize c (committed c b ptr c.BUNDLE_PENDING_TIMESTAMP) ts
      = .ok () (committed c b ptr ts) := by
  simp only [finalize, committed, List.getElem?_concat_length, if_true]
  rw [List.set_append_right _ _ (Nat.le_refl _)]
  simp

theorem run_commit (c : Sentinels) (b : Bundle) (ptr : NodePtr) (ts : timestamp_t)
    (e : BundleEntry) (fuel : Nat) (rest : List Call)
    (hp : b.deref b.head_ = some e) (he : e.ts_ ≠ c.BUNDLE_PENDING_TIMESTAMP)
    (hfuel : 2 ≤ fuel) :
    run c fuel b (Call.prepare ptr :: Call.finalize ts :: rest)
      = run c fuel (committed c b ptr ts) rest := by
  obtain ⟨f, rfl⟩ : ∃ f, fuel = f + 2 := ⟨fuel - 2, by omega⟩
  simp only [run, call, prepare_eq c b ptr e f hp he, finalize_committed]

/-! ## The layout reached by committing pairs -/

theorem built_init (c : Sentinels) (b0 : Bundle) : Built c (init c b0) b0.mem.length [] where
  tail_eq := rfl
  head_eq := rfl
  len_eq := by simp [init]
  tail_entry := by simp [init]
  entry := by intro i p t h; simp at h

theorem built_committed (c : Sentinels) (b : Bundle) (L : Nat)
    (pairs : List (NodePtr × timestamp_t)) (p : NodePtr) (t : timestamp_t)
    (hb : Built c b L pairs) : Built c (committed c b p t) L (pairs ++ [(p, t)]) where
  tail_eq := hb.tail_eq
  head_eq := by simp only [committed, hb.len_eq, List.length_append, List.length_singleton]; rfl
  len_eq := by
    simp only [committed, hb.len_eq, List.length_append, List.length_singleton]
    omega
  tail_entry := by
    have hlt : L < b.mem.length := by rw [hb.len_eq]; omega
    simp only [committed]
    rw [List.getElem?_append_left hlt]
    exact hb.tail_entry
  entry := by
    intro i p1 t1 h
    simp only [committed]
    by_cases hi : i < pairs.length
    · rw [List.getElem?_append_left hi] at h
      have hlt : L + i + 1 < b.mem.length := by rw [hb.len_eq]; omega
      rw [List.getElem?_append_left hlt]
      exact hb.entry i p1 t1 h
    · have hle : pairs.length ≤ i := Nat.le_of_not_lt hi
      rw [List.getElem?_append_right hle] at h
      have hi0 : i - pairs.length = 0 := by
        by_contra hne
        obtain ⟨k, hk⟩ : ∃ k, i - pairs.length = k + 1 := ⟨i - pairs.length - 1, by omega⟩
        rw [hk] at h
        simp at h
      rw [hi0] at h
      simp only [List.getElem?_cons_zero, Option.some.injEq, Prod.mk.injEq] at h
      obtain ⟨rfl, rfl⟩ := h
      have hieq : i = pairs.length := by omega
      subst hieq
      have hlen : b.mem.length = L + pairs.length + 1 := hb.len_eq
      rw [← hlen, List.getElem?_concat_length, hb.head_eq]

theorem built_head (c : Sentinels) (b : Bundle) (L : Nat)
    (pairs : List (NodePtr × timestamp_t)) (hb : Built c b L pairs)
    (hc : c.BUNDLE_NULL_TIMESTAMP ≠ c.BUNDLE_PENDING_TIMESTAMP)
    (hr : ∀ pt ∈ pairs, pt.2 ≠ c.BUNDLE_PENDING_TIMESTAMP) :
    ∃ e, b.deref b.head_ = some e ∧ e.ts_ ≠ c.BUNDLE_PENDING_TIMESTAMP := by
  rw [hb.head_eq]
  simp only [deref]
  rcases Nat.eq_zero_or_pos pairs.length with h0 | hpos
  · rw [h0, Nat.add_zero, hb.tail_entry]
    exact ⟨_, rfl, hc⟩
  · have hlt : pairs.length - 1 < pairs.length := by omega
    have hget : pairs[pairs.length - 1]? = some ((pairs[pairs.length - 1]).1,
        (pairs[pairs.length - 1]).2) := by
      rw [List.getElem?_eq_getElem hlt]
    have hidx : L + pairs.length = L + (pairs.length - 1) + 1 := by omega
    rw [hidx, hb.entry _ _ _ hget]
    exact ⟨_, rfl, hr _ (List.getElem_mem _)⟩

theorem run_commitCalls (c : Sentinels) (fuel : Nat) (L : Nat)
    (hc : c.BUNDLE_NULL_TIMESTAMP ≠ c.BUNDLE_PENDING_TIMESTAMP) (hfuel : 2 ≤ fuel)
    (todo : List (NodePtr × timestamp_t)) :
    ∀ (b : Bundle) (done : List (NodePtr × timestamp_t)), Built c b L done →
      (∀ pt ∈ done ++ todo, pt.2 ≠ c.BUNDLE_PENDING_TIMESTAMP) →
      ∃ b1, run c fuel b (commitCalls todo) = .ok () b1 ∧ Built c b1 L (done ++ todo) := by
  induction todo with
  | nil =>
    intro b done hb _
    exact ⟨b, rfl, by simpa using hb⟩
  | cons pt rest ih =>
    intro b done hb hr
    obtain ⟨p, t⟩ := pt
    obtain ⟨e, hp, he⟩ := built_head c b L done hb hc
      (fun x hx => hr x (List.mem_append_left _ hx))
    have hstep := built_committed c b L done p t hb
    have hr1 : ∀ x ∈ (done ++ [(p, t)]) ++ rest, x.2 ≠ c.BUNDLE_PENDING_TIMESTAMP := by
      intro x hx
      apply hr x
      simpa using hx
    obtain ⟨b1, h1, h2⟩ := ih (committed c b p t) (done ++ [(p, t)]) hstep hr1
    refine ⟨b1, ?_, by simpa using h2⟩
    simp only [commitCalls]
    rw [run_commit c b p t e fuel _ hp he hfuel]
    exact h1

/-! ## Reading a built bundle -/

/-- Walking down from address `L + k` stops at address `L + m` when the entries of index
`m ≤ j < k` are all newer than the query and the entry below them (if any) is not. -/
theorem walk_built (c : Sentinels) (b : Bundle) (L : Nat)
    (pairs : List (NodePtr × timestamp_t)) (hb : Built c b L pairs) (q : timestamp_t)
    (m : Nat)
    (hstop : m = 0 ∨ ∃ pt, pairs[m - 1]? = some pt ∧ pt.2 ≤ q) :
    ∀ (fuel k : Nat), m ≤ k → k - m + 1 ≤ fuel →
      (∀ j, m ≤ j → j < k →
        ∃ pt, pairs[j]? = some pt ∧ q < pt.2 ∧ pt.2 ≠ c.BUNDLE_NULL_TIMESTAMP) →
      walk c b q fuel (some (L + k)) = .ok (some (L + m)) b := by
  intro fuel
  induction fuel with
  | zero => intro k _ hf; omega
  | succ f ih =>
    intro k hmk hf hskip
    unfold walk
    rcases Nat.eq_or_lt_of_le hmk with hk | hk
    · subst hk
      rcases Nat.eq_zero_or_pos m with h0 | hm
      · subst h0
        simp [hb.tail_eq]
      · rcases hstop with h0 | ⟨pt, hpt, hle⟩
        · omega
        · have hne : ¬ (some (L + m) = b.tail_) := by
            rw [hb.tail_eq]; simp; omega
          have hidx : L + m = L + (m - 1) + 1 := by omega
          have hent := hb.entry (m - 1) pt.1 pt.2 (by simpa using hpt)
          simp only [hne, if_false, deref]
          rw [hidx, hent]
          have hng : ¬ (pt.2 > q) := not_lt.mpr hle
          simp only [hng, if_false]
    · obtain ⟨k1, rfl⟩ : ∃ k1, k = k1 + 1 := ⟨k - 1, by omega⟩
      obtain ⟨pt, hpt, hlt, hnull⟩ := hskip k1 (by omega) (by omega)
      have hne : ¬ (some (L + (k1 + 1)) = b.tail_) := by
        rw [hb.tail_eq]; simp
      have hent := hb.entry k1 pt.1 pt.2 (by simpa using hpt)
      have hidx : L + (k1 + 1) = L + k1 + 1 := by omega
      simp only [hne, if_false, deref]
      rw [hidx, hent]
      have hg : pt.2 > q := hlt
      simp only [hg, if_true, ne_eq, hnull, not_false_eq_true]
      exact ih k1 (by omega) (by omega) (fun j h1 h2 => hskip j h1 (by omega))

theorem getPtr_of_curr (c : Sentinels) (fuel : Nat) (b b1 : Bundle) (q : timestamp_t)
    (a : Addr) (e : BundleEntry)
    (hcurr : getPtrByTimestamp_curr c fuel b q = .ok (some a) b1)
    (he : b1.mem[a]? = some e) :
    getPtrByTimestamp c fuel b q = .ok e.ptr_ b1 := by
  simp [getPtrByTimestamp, hcurr, deref, he]

end Bundle

theorem increasing_getElem? (pairs : List (NodePtr × timestamp_t))
    (hinc : StrictlyIncreasing pairs) (i j : Nat) (x y : NodePtr × timestamp_t)
    (hx : pairs[i]? = some x) (hy : pairs[j]? = some y) (hij : i < j) : x.2 < y.2 := by
  obtain ⟨hi, rfl⟩ := List.getElem?_eq_some.mp hx
  obtain ⟨hj, rfl⟩ := List.getElem?_eq_some.mp hy
  exact (List.pairwise_iff_getElem.mp hinc) i j hi hj hij

namespace Bundle

/-- On a bundle built from strictly increasing real timestamps, the read at `q` selects
the entry of index `m - 1` (the tail for `m = 0`) as soon as that entry is not newer than
`q` and the next one is. -/
theorem curr_built (c : Sentinels) (b : Bundle) (L : Nat)
    (pairs : List (NodePtr × timestamp_t)) (hb : Built c b L pairs)
    (hc : c.BUNDLE_NULL_TIMESTAMP ≠ c.BUNDLE_PENDING_TIMESTAMP)
    (hreal : RealTimestamps c pairs) (hinc : StrictlyIncreasing pairs)
    (q : timestamp_t) (m fuel : Nat) (hm : m ≤ pairs.length)
    (hstop : m = 0 ∨ ∃ pt, pairs[m - 1]? = some pt ∧ pt.2 ≤ q)
    (hnext : ∀ pt, pairs[m]? = some pt → q < pt.2)
    (hfuel : pairs.length + 1 ≤ fuel) :
    getPtrByTimestamp_curr c fuel b q = .ok (some (L + m)) b := by
  obtain ⟨e, hp, he⟩ := built_head c b L pairs hb hc (fun x hx => (hreal x hx).2)
  obtain ⟨f, rfl⟩ : ∃ f, fuel = f + 1 := ⟨fuel - 1, by omega⟩
  simp only [getPtrByTimestamp_curr, spin_of_final c b b.head_ e f hp he]
  rw [hb.head_eq]
  apply walk_built c b L pairs hb q m hstop (f + 1) pairs.length hm (by omega)
  intro j hmj hj
  have hjm : pairs[j]? = some pairs[j] := List.getElem?_eq_getElem hj
  have hmm : pairs[m]? = some pairs[m] := List.getElem?_eq_getElem (by omega)
  refine ⟨pairs[j], hjm, ?_, (hreal _ (List.getElem_mem _)).1⟩
  rcases Nat.eq_or_lt_of_le hmj with h | h
  · subst h
    exact hnext _ hmm
  · exact lt_trans (hnext _ hmm) (increasing_getElem? pairs hinc m j _ _ hmm hjm h)

theorem built_run (c : Sentinels) (b0 : Bundle) (pairs : List (NodePtr × timestamp_t))
    (fuel : Nat) (hc : c.BUNDLE_NULL_TIMESTAMP ≠ c.BUNDLE_PENDING_TIMESTAMP)
    (hreal : RealTimestamps c pairs) (hfuel : 2 ≤ fuel) :
    ∃ b, run c fuel (init c b0) (commitCalls pairs) = .ok () b ∧
      Built c b b0.mem.length pairs := by
  have h := run_commitCalls c fuel b0.mem.length hc hfuel pairs (init c b0) []
    (built_init c b0) (fun x hx => (hreal x (by simpa using hx)).2)
  simpa using h

theorem read_built_entry (c : Sentinels) (b : Bundle) (L : Nat)
    (pairs : List (NodePtr × timestamp_t)) (hb : Built c b L pairs)
    (hc : c.BUNDLE_NULL_TIMESTAMP ≠ c.BUNDLE_PENDING_TIMESTAMP)
    (hreal : RealTimestamps c pairs) (hinc : StrictlyIncreasing pairs)
    (q : timestamp_t) (fuel : Nat) (hfuel : pairs.length + 1 ≤ fuel)
    (k : Nat) (hk : k < pairs.length) (hle : (pairs[k]).2 ≤ q)
    (hnext : ∀ pt, pairs[k + 1]? = some pt → q < pt.2) :
    getPtrByTimestamp_curr c fuel b q = .ok (some (L + k + 1)) b ∧
      getPtrByTimestamp c fuel b q = .ok (pairs[k]).1 b := by
  have hget : pairs[k]? = some pairs[k] := List.getElem?_eq_getElem hk
  have hcurr := curr_built c b L pairs hb hc hreal hinc q (k + 1) fuel (by omega)
    (Or.inr ⟨pairs[k], by simp, hle⟩) hnext hfuel
  have hcurr1 : getPtrByTimestamp_curr c fuel b q = .ok (some (L + k + 1)) b := hcurr
  exact ⟨hcurr1, getPtr_of_curr c fuel b b q (L + k + 1) _ hcurr1
    (hb.entry k (pairs[k]).1 (pairs[k]).2 hget)⟩

theorem read_built_tail (c : Sentinels) (b : Bundle) (L : Nat)
    (pairs : List (NodePtr × timestamp_t)) (hb : Built c b L pairs)
    (hc : c.BUNDLE_NULL_TIMESTAMP ≠ c.BUNDLE_PENDING_TIMESTAMP)
    (hreal : RealTimestamps c pairs) (hinc : StrictlyIncreasing pairs)
    (q : timestamp_t) (fuel : Nat) (hfuel : pairs.length + 1 ≤ fuel)
    (hnext : ∀ pt, pairs[0]? = some pt → q < pt.2) :
    getPtrByTimestamp_curr c fuel b q = .ok (some L) b ∧
      getPtrByTimestamp c fuel b q = .ok none b := by
  have hcurr := curr_built c b L pairs hb hc hreal hinc q 0 fuel (by omega)
    (Or.inl rfl) hnext hfuel
  have hcurr1 : getPtrByTimestamp_curr c fuel b q = .ok (some L) b := hcurr
  exact ⟨hcurr1, getPtr_of_curr c fuel b b q L _ hcurr1 hb.tail_entry⟩

end Bundle

/-- Among strictly ordered pairs, above an index whose timestamp is at most `q` there is a
last such index. -/
theorem exists_last_le (pairs : List (NodePtr × timestamp_t)) (q : timestamp_t) :
    ∀ (d k0 : Nat) (hk0 : k0 < pairs.length), pairs.length - k0 ≤ d → (pairs[k0]).2 ≤ q →
      ∃ k, ∃ hk : k < pairs.length, k0 ≤ k ∧ (pairs[k]).2 ≤ q ∧
        ∀ pt, pairs[k + 1]? = some pt → q < pt.2 := by
  intro d
  induction d with
  | zero => intro k0 hk0 hd; omega
  | succ d ih =>
    intro k0 hk0 hd hle
    by_cases hnext : ∀ pt, pairs[k0 + 1]? = some pt → q < pt.2
    · exact ⟨k0, hk0, le_refl _, hle, hnext⟩
    · have hex : ∃ pt, pairs[k0 + 1]? = some pt ∧ ¬ q < pt.2 := by
        by_contra hcon
        exact hnext (fun pt hpt => by
          by_contra hq
          exact hcon ⟨pt, hpt, hq⟩)
      obtain ⟨pt, hpt, hq⟩ := hex
      obtain ⟨hlt, hval⟩ := List.getElem?_eq_some.mp hpt
      obtain ⟨k, hk, hk0k, hkle, hknext⟩ := ih (k0 + 1) hlt (by omega)
        (by rw [hval]; exact not_lt.mp hq)
      exact ⟨k, hk, by omega, hkle, hknext⟩

/-! ## The chain of a built bundle -/

theorem Bundle.chainFrom_built (c : Sentinels) (b : Bundle) (L : Nat)
    (pairs : List (NodePtr × timestamp_t)) (hb : Bundle.Built c b L pairs) :
    ∀ (k fuel : Nat), k ≤ pairs.length → k + 1 ≤ fuel →
      b.chainFrom fuel (some (L + k)) = some (builtChain c L pairs k) := by
  intro k
  induction k with
  | zero =>
    intro fuel _ hf
    obtain ⟨f, rfl⟩ : ∃ f, fuel = f + 1 := ⟨fuel - 1, by omega⟩
    simp [Bundle.chainFrom, hb.tail_entry, hb.tail_eq, builtChain]
  | succ k ih =>
    intro fuel hk hf
    obtain ⟨f, rfl⟩ : ∃ f, fuel = f + 1 := ⟨fuel - 1, by omega⟩
    have hlt : k < pairs.length := by omega
    have hget : pairs[k]? = some ((pairs[k]).1, (pairs[k]).2) := List.getElem?_eq_getElem hlt
    have hent := hb.entry k _ _ hget
    have hne : ¬ (some (L + (k + 1)) = b.tail_) := by
      rw [hb.tail_eq]
      intro h
      have h1 : L + (k + 1) = L := Option.some.inj h
      omega
    have hidx : L + (k + 1) = L + k + 1 := by omega
    unfold Bundle.chainFrom
    simp only [hne, if_false]
    rw [hidx, hent]
    simp only [ih f (by omega) (by omega), Option.map_some']
    rw [builtChain.eq_2, hget]

theorem builtChain_ts (c : Sentinels) (L : Nat) (pairs : List (NodePtr × timestamp_t)) :
    ∀ k, k ≤ pairs.length →
      (builtChain c L pairs k).map (fun x => x.2.ts_)
        = ((pairs.take k).reverse.map Prod.snd) ++ [c.BUNDLE_NULL_TIMESTAMP] := by
  intro k
  induction k with
  | zero => intro _; simp [builtChain, BundleEntry.ctor]
  | succ k ih =>
    intro hk
    have hlt : k < pairs.length := by omega
    have hget : pairs[k]? = some ((pairs[k]).1, (pairs[k]).2) := List.getElem?_eq_getElem hlt
    rw [builtChain.eq_2, hget]
    have htake : List.take (k + 1) pairs = List.take k pairs ++ [pairs[k]] := by
      rw [List.take_succ, List.getElem?_eq_getElem hlt]
      rfl
    simp only [List.map_cons, ih (by omega), htake, List.reverse_append, List.reverse_cons,
      List.reverse_nil, List.nil_append, List.singleton_append, List.cons_append]

theorem builtChain_split (c : Sentinels) (L : Nat) (pairs : List (NodePtr × timestamp_t)) :
    ∀ k, ∃ front, builtChain c L pairs k
      = front ++ [(L, BundleEntry.ctor c c.BUNDLE_NULL_TIMESTAMP none none)] := by
  intro k
  induction k with
  | zero => exact ⟨[], rfl⟩
  | succ k ih =>
    obtain ⟨front, hfront⟩ := ih
    rw [builtChain.eq_2]
    cases hget : pairs[k]? with
    | none => exact ⟨front, hfront⟩
    | some pt =>
      obtain ⟨p, t⟩ := pt
      refine ⟨(L + k + 1, BundleEntry.mk t p (some (L + k)) c.BUNDLE_NULL_TIMESTAMP) :: front, ?_⟩
      simp only [hfront, List.cons_append]

theorem builtChain_getLast? (c : Sentinels) (L : Nat) (pairs : List (NodePtr × timestamp_t))
    (k : Nat) : ((builtChain c L pairs k).getLast?).map Prod.fst = some L := by
  obtain ⟨front, hfront⟩ := builtChain_split c L pairs k
  rw [hfront, List.getLast?_concat]
  rfl

theorem builtChain_head? (c : Sentinels) (L : Nat) (pairs : List (NodePtr × timestamp_t)) :
    ∀ k, k ≤ pairs.length → ((builtChain c L pairs k).head?).map Prod.fst = some (L + k) := by
  intro k
  cases k with
  | zero => intro _; simp [builtChain]
  | succ k =>
    intro hk
    have hlt : k < pairs.length := by omega
    have hget : pairs[k]? = some ((pairs[k]).1, (pairs[k]).2) := List.getElem?_eq_getElem hlt
    rw [builtChain.eq_2, hget]
    rfl

/-! ## What a returning call did -/

theorem Bundle.prepare_ok_inv (c : Sentinels) (fuel : Nat) (b b1 : Bundle) (ptr : NodePtr)
    (u : Unit) (h : Bundle.prepare c fuel b ptr = .ok u b1) :
    (∃ e, b.deref b.head_ = some e ∧ e.ts_ ≠ c.BUNDLE_PENDING_TIMESTAMP) ∧
      b1 = Bundle.committed c b ptr c.BUNDLE_PENDING_TIMESTAMP := by
  cases fuel with
  | zero => simp [Bundle.prepare, Bundle.prepareLoop] at h
  | succ f =>
    simp only [Bundle.prepare, Bundle.prepareLoop, BundleEntry.ctor,
      List.getElem?_concat_length] at h
    rw [List.set_append_right _ _ (Nat.le_refl _)] at h
    simp only [Nat.sub_self, List.set_cons_zero] at h
    cases hs : Bundle.spinWhilePending c
        { mem := b.mem ++ [BundleEntry.mk c.BUNDLE_PENDING_TIMESTAMP ptr b.head_
            c.BUNDLE_NULL_TIMESTAMP], head_ := b.head_, tail_ := b.tail_ } b.head_ f with
    | ok v s =>
      rw [hs] at h
      obtain ⟨hstate, e, he, hfin⟩ := Bundle.spin_ok_inv c _ _ _ _ _ hs
      subst hstate
      simp only [if_true] at h
      have hb1 : b1 = Bundle.committed c b ptr c.BUNDLE_PENDING_TIMESTAMP := by
        cases h
        rfl
      refine ⟨?_, hb1⟩
      cases hh : b.head_ with
      | none => rw [hh] at he; simp [Bundle.deref] at he
      | some a =>
        rw [hh] at he
        simp only [Bundle.deref] at he ⊢
        rcases Nat.lt_trichotomy a b.mem.length with hlt | heq | hgt
        · rw [List.getElem?_append_left hlt] at he
          exact ⟨e, he, hfin⟩
        · subst heq
          rw [List.getElem?_concat_length] at he
          cases he
          exact absurd rfl hfin
        · rw [List.getElem?_eq_none (by simp; omega)] at he
          cases he
    | abort s => rw [hs] at h; cases h
    | fault => rw [hs] at h; cases h
    | timeout => rw [hs] at h; cases h

theorem Bundle.finalize_ok_inv (c : Sentinels) (b b1 : Bundle) (ts : timestamp_t) (u : Unit)
    (h : Bundle.finalize c b ts = .ok u b1) :
    ∃ a e, b.head_ = some a ∧ b.mem[a]? = some e ∧ e.ts_ = c.BUNDLE_PENDING_TIMESTAMP ∧
      b1 = { b with mem := b.mem.set a { e with ts_ := ts } } := by
  unfold Bundle.finalize at h
  cases hh : b.head_ with
  | none => simp [hh] at h
  | some a =>
    simp only [hh] at h
    cases he : b.mem[a]? with
    | none => simp [he] at h
    | some e =>
      simp only [he] at h
      by_cases hp : e.ts_ = c.BUNDLE_PENDING_TIMESTAMP
      · simp only [hp, if_true] at h
        cases h
        exact ⟨a, e, rfl, he, hp, rfl⟩
      · simp [hp] at h

theorem Bundle.walk_ok_inv (c : Sentinels) (b : Bundle) (ts : timestamp_t) :
    ∀ (fuel : Nat) (curr r : Option Addr) (b1 : Bundle),
      Bundle.walk c b ts fuel curr = .ok r b1 → b1 = b := by
  intro fuel
  induction fuel with
  | zero => intro curr r b1 h; simp [Bundle.walk] at h
  | succ f ih =>
    intro curr r b1 h
    unfold Bundle.walk at h
    by_cases ht : curr = b.tail_
    · simp only [ht, if_true] at h
      cases h
      rfl
    · simp only [ht, if_false] at h
      cases he : b.deref curr with
      | none => simp [he] at h
      | some e =>
        simp only [he] at h
        by_cases hg : e.ts_ > ts
        · simp only [hg, if_true] at h
          by_cases hn : e.ts_ ≠ c.BUNDLE_NULL_TIMESTAMP
          · rw [if_pos hn] at h
            exact ih _ _ _ h
          · rw [if_neg hn] at h
            cases h
        · simp only [hg, if_false] at h
          cases h
          rfl

theorem Bundle.curr_ok_inv (c : Sentinels) (fuel : Nat) (b b1 : Bundle) (ts : timestamp_t)
    (r : Option Addr) (h : Bundle.getPtrByTimestamp_curr c fuel b ts = .ok r b1) : b1 = b := by
  simp only [Bundle.getPtrByTimestamp_curr] at h
  cases hs : Bundle.spinWhilePending c b b.head_ fuel with
  | ok v s =>
    rw [hs] at h
    obtain ⟨hstate, _⟩ := Bundle.spin_ok_inv c _ _ _ _ _ hs
    subst hstate
    exact Bundle.walk_ok_inv c _ ts fuel _ _ _ h
  | abort s => rw [hs] at h; cases h
  | fault => rw [hs] at h; cases h
  | timeout => rw [hs] at h; cases h

theorem Bundle.getPtr_ok_inv (c : Sentinels) (fuel : Nat) (b b1 : Bundle) (ts : timestamp_t)
    (r : NodePtr) (h : Bundle.getPtrByTimestamp c fuel b ts = .ok r b1) : b1 = b := by
  unfold Bundle.getPtrByTimestamp at h
  cases hs : Bundle.getPtrByTimestamp_curr c fuel b ts with
  | ok v s =>
    rw [hs] at h
    have hstate := Bundle.curr_ok_inv c fuel b s ts v hs
    subst hstate
    cases hd : s.deref v with
    | none => simp [hd] at h
    | some e =>
      simp only [hd] at h
      cases h
      rfl
  | abort s => rw [hs] at h; cases h
  | fault => rw [hs] at h; cases h
  | timeout => rw [hs] at h; cases h

/-! ## The layout reached by any sequence of returning calls -/

theorem Bundle.stacked_init (c : Sentinels) (b0 : Bundle) :
    Bundle.Stacked c (Bundle.init c b0) b0.mem.length 0 where
  tail_eq := rfl
  head_eq := rfl
  len_eq := by simp [Bundle.init]
  link := by intro i hi; omega
  final := by intro i hi; omega

theorem Bundle.stacked_prepare (c : Sentinels) (b : Bundle) (L n : Nat) (ptr : NodePtr)
    (e : BundleEntry) (hs : Bundle.Stacked c b L n) (he : b.deref b.head_ = some e)
    (hfin : e.ts_ ≠ c.BUNDLE_PENDING_TIMESTAMP) :
    Bundle.Stacked c (Bundle.committed c b ptr c.BUNDLE_PENDING_TIMESTAMP) L (n + 1) where
  tail_eq := hs.tail_eq
  head_eq := by simp only [Bundle.committed, hs.len_eq]; rfl
  len_eq := by
    simp only [Bundle.committed, hs.len_eq, List.length_append, List.length_singleton]
    omega
  link := by
    intro i hi
    simp only [Bundle.committed]
    rcases Nat.eq_or_lt_of_le (Nat.le_of_lt_succ hi) with heq | hlt
    · subst heq
      have hlen : b.mem.length = L + i + 1 := hs.len_eq
      rw [← hlen, List.getElem?_concat_length]
      exact ⟨_, rfl, hs.head_eq⟩
    · obtain ⟨e1, h1, h2⟩ := hs.link i hlt
      have hlen : L + i + 1 < b.mem.length := by rw [hs.len_eq]; omega
      rw [List.getElem?_append_left hlen]
      exact ⟨e1, h1, h2⟩
  final := by
    intro i hi
    simp only [Bundle.committed]
    have hlen : L + i < b.mem.length := by rw [hs.len_eq]; omega
    rw [List.getElem?_append_left hlen]
    rcases Nat.eq_or_lt_of_le (Nat.le_of_lt_succ hi) with heq | hlt
    · subst heq
      rw [hs.head_eq] at he
      exact ⟨e, he, hfin⟩
    · exact hs.final i hlt

theorem Bundle.stacked_finalize (c : Sentinels) (b : Bundle) (L n : Nat) (ts : timestamp_t)
    (a : Nat) (e : BundleEntry) (hs : Bundle.Stacked c b L n) (ha : b.head_ = some a)
    (he : b.mem[a]? = some e) :
    Bundle.Stacked c { b with mem := b.mem.set a { e with ts_ := ts } } L n where
  tail_eq := hs.tail_eq
  head_eq := hs.head_eq
  len_eq := by simp only [List.length_set]; exact hs.len_eq
  link := by
    intro i hi
    obtain ⟨e1, h1, h2⟩ := hs.link i hi
    simp only [List.getElem?_set]
    by_cases hai : a = L + i + 1
    · have hlt : L + i + 1 < b.mem.length := by rw [hs.len_eq]; omega
      rw [hai] at he
      rw [he] at h1
      cases h1
      simp only [hai, if_true, hlt]
      exact ⟨_, rfl, h2⟩
    · simp only [hai, if_false]
      exact ⟨e1, h1, h2⟩
  final := by
    intro i hi
    have hal : a = L + n := by
      have h := hs.head_eq
      rw [ha] at h
      exact Option.some.inj h
    have hne : ¬ (a = L + i) := by omega
    simp only [List.getElem?_set, hne, if_false]
    exact hs.final i hi

theorem Bundle.stacked_call (c : Sentinels) (fuel : Nat) (b b1 : Bundle) (L n : Nat)
    (k : Call) (v : Option NodePtr) (hs : Bundle.Stacked c b L n)
    (h : Bundle.call c fuel b k = .ok v b1) : ∃ n1, Bundle.Stacked c b1 L n1 := by
  cases k with
  | prepare ptr =>
    simp only [Bundle.call] at h
    cases hp : Bundle.prepare c fuel b ptr with
    | ok u s =>
      rw [hp] at h
      cases h
      obtain ⟨⟨e, he, hfin⟩, hst⟩ := Bundle.prepare_ok_inv c fuel b _ ptr u hp
      rw [hst]
      exact ⟨n + 1, Bundle.stacked_prepare c b L n ptr e hs he hfin⟩
    | abort s => rw [hp] at h; cases h
    | fault => rw [hp] at h; cases h
    | timeout => rw [hp] at h; cases h
  | finalize ts =>
    simp only [Bundle.call] at h
    cases hp : Bundle.finalize c b ts with
    | ok u s =>
      rw [hp] at h
      cases h
      obtain ⟨a, e, ha, he, _, hst⟩ := Bundle.finalize_ok_inv c b _ ts u hp
      rw [hst]
      exact ⟨n, Bundle.stacked_finalize c b L n ts a e hs ha he⟩
    | abort s => rw [hp] at h; cases h
    | fault => rw [hp] at h; cases h
    | timeout => rw [hp] at h; cases h
  | getPtrByTimestamp ts =>
    simp only [Bundle.call] at h
    cases hp : Bundle.getPtrByTimestamp c fuel b ts with
    | ok u s =>
      rw [hp] at h
      cases h
      rw [Bundle.getPtr_ok_inv c fuel b _ ts u hp]
      exact ⟨n, hs⟩
    | abort s => rw [hp] at h; cases h
    | fault => rw [hp] at h; cases h
    | timeout => rw [hp] at h; cases h

theorem Bundle.run_cons_ok (c : Sentinels) (fuel : Nat) (b b1 : Bundle) (k : Call)
    (rest : List Call) (u : Unit) (h : Bundle.run c fuel b (k :: rest) = .ok u b1) :
    ∃ v s, Bundle.call c fuel b k = .ok v s ∧ Bundle.run c fuel s rest = .ok u b1 := by
  simp only [Bundle.run] at h
  cases hk : Bundle.call c fuel b k with
  | ok v s => rw [hk] at h; exact ⟨v, s, rfl, h⟩
  | abort s => rw [hk] at h; cases h
  | fault => rw [hk] at h; cases h
  | timeout => rw [hk] at h; cases h

theorem Bundle.stacked_run (c : Sentinels) (fuel : Nat) (L : Nat) (calls : List Call) :
    ∀ (b b1 : Bundle) (n : Nat) (u : Unit), Bundle.Stacked c b L n →
      Bundle.run c fuel b calls = .ok u b1 → ∃ n1, Bundle.Stacked c b1 L n1 := by
  induction calls with
  | nil =>
    intro b b1 n u hs h
    simp only [Bundle.run] at h
    cases h
    exact ⟨n, hs⟩
  | cons k rest ih =>
    intro b b1 n u hs h
    obtain ⟨v, s, hk, hrest⟩ := Bundle.run_cons_ok c fuel b b1 k rest u h
    obtain ⟨n1, hs1⟩ := Bundle.stacked_call c fuel b s L n k v hs hk
    exact ih s b1 n1 u hs1 hrest

/-- The chain of a stacked bundle from address `L + k`: the entry found there, then entries
at addresses strictly below it. -/
theorem Bundle.chainFrom_stacked (c : Sentinels) (b : Bundle) (L n : Nat)
    (hs : Bundle.Stacked c b L n) :
    ∀ (k fuel : Nat), k ≤ n → k + 1 ≤ fuel →
      ∃ e rest, b.chainFrom fuel (some (L + k)) = some ((L + k, e) :: rest) ∧
        b.mem[L + k]? = some e ∧
        ∀ x ∈ rest, x.1 < L + k ∧ L ≤ x.1 ∧ b.mem[x.1]? = some x.2 := by
  intro k
  induction k with
  | zero =>
    intro fuel _ hf
    obtain ⟨f, rfl⟩ : ∃ f, fuel = f + 1 := ⟨fuel - 1, by omega⟩
    have hlt : L < b.mem.length := by rw [hs.len_eq]; omega
    refine ⟨b.mem[L], [], ?_, List.getElem?_eq_getElem hlt, by simp⟩
    simp [Bundle.chainFrom, List.getElem?_eq_getElem hlt, hs.tail_eq]
  | succ k ih =>
    intro fuel hk hf
    obtain ⟨f, rfl⟩ : ∃ f, fuel = f + 1 := ⟨fuel - 1, by omega⟩
    obtain ⟨e, he, hnext⟩ := hs.link k (by omega)
    obtain ⟨e1, rest, hchain, he1, hrest⟩ := ih f (by omega) (by omega)
    have hne : ¬ (some (L + (k + 1)) = b.tail_) := by
      rw [hs.tail_eq]
      intro h
      have h1 : L + (k + 1) = L := Option.some.inj h
      omega
    have hidx : L + (k + 1) = L + k + 1 := by omega
    refine ⟨e, (L + k, e1) :: rest, ?_, by rw [hidx]; exact he, ?_⟩
    · unfold Bundle.chainFrom
      simp only [hne, if_false]
      rw [hidx, he]
      simp only [hnext, hchain, Option.map_some']
    · intro x hx
      rcases List.mem_cons.mp hx with h | h
      · subst h
        exact ⟨by simp, by simp, he1⟩
      · obtain ⟨h1, h2, h3⟩ := hrest x h
        exact ⟨by omega, h2, h3⟩

/-! ## Entries that are never written -/

theorem Bundle.call_keeps_final (c : Sentinels) (fuel : Nat) (b b1 : Bundle) (k : Call)
    (v : Option NodePtr) (h : Bundle.call c fuel b k = .ok v b1) (a : Nat) (e : BundleEntry)
    (he : b.mem[a]? = some e) (hfin : e.ts_ ≠ c.BUNDLE_PENDING_TIMESTAMP) :
    b1.mem[a]? = some e := by
  cases k with
  | prepare ptr =>
    simp only [Bundle.call] at h
    cases hp : Bundle.prepare c fuel b ptr with
    | ok u s =>
      rw [hp] at h
      cases h
      obtain ⟨_, hst⟩ := Bundle.prepare_ok_inv c fuel b _ ptr u hp
      rw [hst]
      simp only [Bundle.committed]
      rw [List.getElem?_append_left (List.getElem?_eq_some.mp he).1]
      exact he
    | abort s => rw [hp] at h; cases h
    | fault => rw [hp] at h; cases h
    | timeout => rw [hp] at h; cases h
  | finalize ts =>
    simp only [Bundle.call] at h
    cases hp : Bundle.finalize c b ts with
    | ok u s =>
      rw [hp] at h
      cases h
      obtain ⟨a1, e1, _, he1, hpend, hst⟩ := Bundle.finalize_ok_inv c b _ ts u hp
      rw [hst]
      have hne : ¬ (a1 = a) := by
        intro heq
        rw [heq, he] at he1
        cases he1
        exact hfin hpend
      simp only [List.getElem?_set, hne, if_false]
      exact he
    | abort s => rw [hp] at h; cases h
    | fault => rw [hp] at h; cases h
    | timeout => rw [hp] at h; cases h
  | getPtrByTimestamp ts =>
    simp only [Bundle.call] at h
    cases hp : Bundle.getPtrByTimestamp c fuel b ts with
    | ok u s =>
      rw [hp] at h
      cases h
      rw [Bundle.getPtr_ok_inv c fuel b _ ts u hp]
      exact he
    | abort s => rw [hp] at h; cases h
    | fault => rw [hp] at h; cases h
    | timeout => rw [hp] at h; cases h

theorem Bundle.run_keeps_final (c : Sentinels) (fuel : Nat) (calls : List Call) :
    ∀ (b b1 : Bundle) (u : Unit), Bundle.run c fuel b calls = .ok u b1 →
      ∀ (a : Nat) (e : BundleEntry), b.mem[a]? = some e →
        e.ts_ ≠ c.BUNDLE_PENDING_TIMESTAMP → b1.mem[a]? = some e := by
  induction calls with
  | nil =>
    intro b b1 u h a e he _
    simp only [Bundle.run] at h
    cases h
    exact he
  | cons k rest ih =>
    intro b b1 u h a e he hfin
    obtain ⟨v, s, hk, hrest⟩ := Bundle.run_cons_ok c fuel b b1 k rest u h
    exact ih s b1 u hrest a e (Bundle.call_keeps_final c fuel b s k v hk a e he hfin) hfin

/-! ## Reads do not depend on the retirement markers -/

theorem Outcome.returned_mapPost {σ α : Type} (f : σ → σ) (o : Outcome σ α) :
    (o.mapPost f).returned = o.returned := by
  cases o <;> rfl

theorem Bundle.deref_eraseDeleted (b : Bundle) (p : Option Addr) :
    b.eraseDeleted.deref p = (b.deref p).map BundleEntry.eraseDeleted := by
  cases p with
  | none => rfl
  | some a => simp [Bundle.deref, Bundle.eraseDeleted, List.getElem?_map]

theorem Bundle.spin_eraseDeleted (c : Sentinels) (b : Bundle) (p : Option Addr) (fuel : Nat) :
    Bundle.spinWhilePending c b.eraseDeleted p fuel
      = (Bundle.spinWhilePending c b p fuel).mapPost Bundle.eraseDeleted := by
  induction fuel with
  | zero => rfl
  | succ f ih =>
    unfold Bundle.spinWhilePending
    rw [Bundle.deref_eraseDeleted]
    cases hd : b.deref p with
    | none => rfl
    | some e =>
      simp only [Option.map_some', BundleEntry.eraseDeleted]
      by_cases hp : e.ts_ = c.BUNDLE_PENDING_TIMESTAMP
      · simp only [hp, if_true]
        exact ih
      · simp only [hp, if_false]
        rfl

theorem Bundle.walk_eraseDeleted (c : Sentinels) (b : Bundle) (ts : timestamp_t) :
    ∀ (fuel : Nat) (curr : Option Addr),
      Bundle.walk c b.eraseDeleted ts fuel curr
        = (Bundle.walk c b ts fuel curr).mapPost Bundle.eraseDeleted := by
  intro fuel
  induction fuel with
  | zero => intro curr; rfl
  | succ f ih =>
    intro curr
    unfold Bundle.walk
    rw [Bundle.deref_eraseDeleted]
    have htail : b.eraseDeleted.tail_ = b.tail_ := rfl
    rw [htail]
    by_cases ht : curr = b.tail_
    · simp only [ht, if_true]
      rfl
    · simp only [ht, if_false]
      cases hd : b.deref curr with
      | none => rfl
      | some e =>
        simp only [Option.map_some', BundleEntry.eraseDeleted]
        by_cases hg : e.ts_ > ts
        · simp only [hg, if_true]
          by_cases hn : e.ts_ ≠ c.BUNDLE_NULL_TIMESTAMP
          · rw [if_pos hn, if_pos hn]
            exact ih e.next_
          · rw [if_neg hn, if_neg hn]
            rfl
        · simp only [hg, if_false]
          rfl

theorem Bundle.curr_eraseDeleted (c : Sentinels) (fuel : Nat) (b : Bundle) (ts : timestamp_t) :
    Bundle.getPtrByTimestamp_curr c fuel b.eraseDeleted ts
      = (Bundle.getPtrByTimestamp_curr c fuel b ts).mapPost Bundle.eraseDeleted := by
  simp only [Bundle.getPtrByTimestamp_curr]
  have hhead : b.eraseDeleted.head_ = b.head_ := rfl
  rw [hhead, Bundle.spin_eraseDeleted]
  cases hs : Bundle.spinWhilePending c b b.head_ fuel with
  | ok v s =>
    obtain ⟨hstate, _⟩ := Bundle.spin_ok_inv c _ _ _ _ _ hs
    subst hstate
    simp only [Outcome.mapPost]
    exact Bundle.walk_eraseDeleted c s ts fuel s.head_
  | abort s => rfl
  | fault => rfl
  | timeout => rfl

theorem Bundle.getPtr_eraseDeleted (c : Sentinels) (fuel : Nat) (b : Bundle) (ts : timestamp_t) :
    Bundle.getPtrByTimestamp c fuel b.eraseDeleted ts
      = (Bundle.getPtrByTimestamp c fuel b ts).mapPost Bundle.eraseDeleted := by
  unfold Bundle.getPtrByTimestamp
  rw [Bundle.curr_eraseDeleted]
  cases hs : Bundle.getPtrByTimestamp_curr c fuel b ts with
  | ok v s =>
    simp only [Outcome.mapPost]
    rw [Bundle.deref_eraseDeleted]
    cases hd : s.deref v with
    | none => rfl
    | some e => rfl
  | abort s => rfl
  | fault => rfl
  | timeout => rfl

/-! ## Chains in arbitrary states -/

theorem Bundle.chainFrom_mem (b : Bundle) :
    ∀ (fuel : Nat) (p : Option Addr) (l : List (Addr × BundleEntry)),
      b.chainFrom fuel p = some l → ∀ x ∈ l, b.mem[x.1]? = some x.2 := by
  intro fuel
  induction fuel with
  | zero => intro p l h; simp [Bundle.chainFrom] at h
  | succ f ih =>
    intro p l h x hx
    unfold Bundle.chainFrom at h
    cases p with
    | none => simp at h
    | some a =>
      simp only at h
      cases he : b.mem[a]? with
      | none => simp [he] at h
      | some e =>
        simp only [he] at h
        by_cases ht : some a = b.tail_
        · simp only [ht, if_true, Option.some.injEq] at h
          subst h
          simp only [List.mem_singleton] at hx
          subst hx
          exact he
        · simp only [ht, if_false] at h
          cases hr : b.chainFrom f e.next_ with
          | none => simp [hr] at h
          | some rest =>
            simp only [hr, Option.map_some', Option.some.injEq] at h
            subst h
            rcases List.mem_cons.mp hx with hx1 | hx1
            · subst hx1
              exact he
            · exact ih e.next_ rest hr x hx1

theorem Bundle.chainFrom_getLast? (b : Bundle) :
    ∀ (fuel : Nat) (p : Option Addr) (l : List (Addr × BundleEntry)),
      b.chainFrom fuel p = some l → l.getLast?.map Prod.fst = b.tail_ := by
  intro fuel
  induction fuel with
  | zero => intro p l h; simp [Bundle.chainFrom] at h
  | succ f ih =>
    intro p l h
    unfold Bundle.chainFrom at h
    cases p with
    | none => simp at h
    | some a =>
      simp only at h
      cases he : b.mem[a]? with
      | none => simp [he] at h
      | some e =>
        simp only [he] at h
        by_cases ht : some a = b.tail_
        · simp only [ht, if_true, Option.some.injEq] at h
          subst h
          rw [← ht]
          rfl
        · simp only [ht, if_false] at h
          cases hr : b.chainFrom f e.next_ with
          | none => simp [hr] at h
          | some rest =>
            simp only [hr, Option.map_some', Option.some.injEq] at h
            subst h
            have hlast := ih e.next_ rest hr
            cases rest with
            | nil =>
              rw [← hlast] at ht
              cases f with
              | zero => simp [Bundle.chainFrom] at hr
              | succ g =>
                unfold Bundle.chainFrom at hr
                cases hn : e.next_ with
                | none => simp [hn] at hr
                | some n =>
                  simp only [hn] at hr
                  cases hm : b.mem[n]? with
                  | none => simp [hm] at hr
                  | some e2 =>
                    simp only [hm] at hr
                    by_cases ht2 : some n = b.tail_
                    · simp [ht2] at hr
                    · simp only [ht2, if_false] at hr
                      cases hr2 : b.chainFrom g e2.next_ with
                      | none => simp [hr2] at hr
                      | some r2 => simp [hr2] at hr
            | cons y ys =>
              rw [List.getLast?_cons_cons]
              exact hlast

theorem Bundle.chainFrom_head? (b : Bundle) (fuel : Nat) (p : Option Addr)
    (l : List (Addr × BundleEntry)) (h : b.chainFrom fuel p = some l) :
    l.head?.map Prod.fst = p := by
  cases fuel with
  | zero => simp [Bundle.chainFrom] at h
  | succ f =>
    unfold Bundle.chainFrom at h
    cases p with
    | none => simp at h
    | some a =>
      simp only at h
      cases he : b.mem[a]? with
      | none => simp [he] at h
      | some e =>
        simp only [he] at h
        by_cases ht : some a = b.tail_
        · simp only [ht, if_true, Option.some.injEq] at h
          subst h
          rfl
        · simp only [ht, if_false] at h
          cases hr : b.chainFrom f e.next_ with
          | none => simp [hr] at h
          | some rest =>
            simp only [hr, Option.map_some', Option.some.injEq] at h
            subst h
            rfl

/-- A chain is still the chain from the same pointer in a state that has the same tail and
keeps every entry of the old memory. -/
theorem Bundle.chainFrom_ext (b b1 : Bundle) (htail : b1.tail_ = b.tail_)
    (hmem : ∀ (a : Nat) (e : BundleEntry), b.mem[a]? = some e → b1.mem[a]? = some e) :
    ∀ (fuel : Nat) (p : Option Addr) (l : List (Addr × BundleEntry)),
      b.chainFrom fuel p = some l → b1.chainFrom fuel p = some l := by
  intro fuel
  induction fuel with
  | zero => intro p l h; simp [Bundle.chainFrom] at h
  | succ f ih =>
    intro p l h
    unfold Bundle.chainFrom at h ⊢
    cases p with
    | none => simp at h
    | some a =>
      simp only at h ⊢
      cases he : b.mem[a]? with
      | none => simp [he] at h
      | some e =>
        simp only [he] at h
        rw [hmem a e he, htail]
        by_cases ht : some a = b.tail_
        · simp only [ht, if_true] at h ⊢
          exact h
        · simp only [ht, if_false] at h ⊢
          cases hr : b.chainFrom f e.next_ with
          | none => simp [hr] at h
          | some rest =>
            rw [hr] at h
            rw [ih e.next_ rest hr]
            exact h

/-! ## Teardown -/

theorem addrsDown_length (L : Nat) : ∀ k, (addrsDown L k).length = k + 1 := by
  intro k
  induction k with
  | zero => rfl
  | succ k ih => simp [addrsDown, ih]

theorem mem_addrsDown (L : Nat) : ∀ (k a : Nat), a ∈ addrsDown L k ↔ L ≤ a ∧ a ≤ L + k := by
  intro k
  induction k with
  | zero =>
    intro a
    simp only [addrsDown, List.mem_singleton]
    omega
  | succ k ih =>
    intro a
    simp only [addrsDown, List.mem_cons, ih]
    omega

theorem addrsDown_nodup (L : Nat) : ∀ k, (addrsDown L k).Nodup := by
  intro k
  induction k with
  | zero => simp [addrsDown]
  | succ k ih =>
    simp only [addrsDown, List.nodup_cons]
    refine ⟨?_, ih⟩
    rw [mem_addrsDown]
    omega

theorem builtChain_addrs (c : Sentinels) (L : Nat) (pairs : List (NodePtr × timestamp_t)) :
    ∀ k, k ≤ pairs.length → (builtChain c L pairs k).map Prod.fst = addrsDown L k := by
  intro k
  induction k with
  | zero => intro _; rfl
  | succ k ih =>
    intro hk
    have hlt : k < pairs.length := by omega
    have hget : pairs[k]? = some ((pairs[k]).1, (pairs[k]).2) := List.getElem?_eq_getElem hlt
    rw [builtChain.eq_2, hget]
    simp only [List.map_cons, ih (by omega), addrsDown]

/-- On a stacked bundle the destructor's walk from address `L + k` releases the addresses
`L + k, ..., L` in that order, after those already released above them. -/
theorem Bundle.destructorLoop_stacked (c : Sentinels) (b : Bundle) (L n : Nat)
    (hs : Bundle.Stacked c b L n) :
    ∀ (k fuel : Nat) (released : List Nat), k ≤ n → k + 1 ≤ fuel →
      (∀ a ∈ released, L + k < a) →
      b.destructorLoop fuel (some (L + k)) released = .ok () (released ++ addrsDown L k) := by
  intro k
  induction k with
  | zero =>
    intro fuel released _ hf hrel
    obtain ⟨f, rfl⟩ : ∃ f, fuel = f + 1 := ⟨fuel - 1, by omega⟩
    have hlt : L < b.mem.length := by rw [hs.len_eq]; omega
    have hnot : L ∉ released := fun h => Nat.lt_irrefl _ (hrel L h)
    simp [Bundle.destructorLoop, hs.tail_eq, hlt, hnot, addrsDown]
  | succ k ih =>
    intro fuel released hk hf hrel
    obtain ⟨f, rfl⟩ : ∃ f, fuel = f + 1 := ⟨fuel - 1, by omega⟩
    obtain ⟨e, he, hnext⟩ := hs.link k (by omega)
    have hne : ¬ (some (L + (k + 1)) = b.tail_) := by
      rw [hs.tail_eq]
      intro h
      have h1 : L + (k + 1) = L := Option.some.inj h
      omega
    have hnot : L + (k + 1) ∉ released := fun h => Nat.lt_irrefl _ (hrel _ h)
    have hidx : L + (k + 1) = L + k + 1 := by omega
    have hrel1 : ∀ a ∈ released ++ [L + (k + 1)], L + k < a := by
      intro a ha
      rcases List.mem_append.mp ha with h | h
      · have := hrel a h
        omega
      · rw [List.mem_singleton.mp h]
        omega
    have hstep : b.destructorLoop (f + 1) (some (L + (k + 1))) released
        = b.destructorLoop f (some (L + k)) (released ++ [L + (k + 1)]) := by
      simp only [Bundle.destructorLoop, hne, if_false, hnot]
      rw [hidx, he]
      simp only [hnext]
    rw [hstep, ih f (released ++ [L + (k + 1)]) (by omega) (by omega) hrel1]
    simp [addrsDown, hidx]

/-! ## Reading an arbitrary chain -/

theorem Bundle.chainFrom_ne_nil (b : Bundle) (fuel : Nat) (p : Option Addr)
    (l : List (Addr × BundleEntry)) (h : b.chainFrom fuel p = some l) : l ≠ [] := by
  intro hnil
  have hhead := Bundle.chainFrom_head? b fuel p l h
  rw [hnil] at hhead
  cases fuel with
  | zero => simp [Bundle.chainFrom] at h
  | succ f =>
    cases p with
    | none => simp [Bundle.chainFrom] at h
    | some a => simp at hhead

theorem firstNotNewer_singleton (q : timestamp_t) (x : Addr × BundleEntry) :
    firstNotNewer q [x] = some x := by
  simp [firstNotNewer]

theorem firstNotNewer_cons_le (q : timestamp_t) (x y : Addr × BundleEntry)
    (ys : List (Addr × BundleEntry)) (h : x.2.ts_ ≤ q) :
    firstNotNewer q (x :: y :: ys) = some x := by
  simp [firstNotNewer, List.dropLast, List.find?, h]

theorem firstNotNewer_cons_gt (q : timestamp_t) (x y : Addr × BundleEntry)
    (ys : List (Addr × BundleEntry)) (h : ¬ x.2.ts_ ≤ q) :
    firstNotNewer q (x :: y :: ys) = firstNotNewer q (y :: ys) := by
  simp [firstNotNewer, List.dropLast, List.find?, h, List.getLast?_cons_cons]

theorem firstNotNewer_mem (q : timestamp_t) :
    ∀ (l : List (Addr × BundleEntry)) (x : Addr × BundleEntry),
      firstNotNewer q l = some x → x ∈ l := by
  intro l
  induction l with
  | nil => intro x h; simp [firstNotNewer] at h
  | cons y ys ih =>
    intro x h
    cases ys with
    | nil =>
      rw [firstNotNewer_singleton] at h
      cases h
      exact List.mem_singleton.mpr rfl
    | cons z zs =>
      by_cases hle : y.2.ts_ ≤ q
      · rw [firstNotNewer_cons_le q y z zs hle] at h
        cases h
        exact List.mem_cons_self _ _
      · rw [firstNotNewer_cons_gt q y z zs hle] at h
        exact List.mem_cons_of_mem _ (ih x h)

/-- The traversal of `getPtrByTimestamp` from a pointer whose chain is `l` stops on the
entry that `firstNotNewer` designates, when no entry before the tail carries the NULL
timestamp. -/
theorem Bundle.walk_chainFrom (c : Sentinels) (b : Bundle) (q : timestamp_t) :
    ∀ (f : Nat) (p : Option Addr) (l : List (Addr × BundleEntry)),
      b.chainFrom f p = some l →
      (∀ x ∈ l.dropLast, x.2.ts_ ≠ c.BUNDLE_NULL_TIMESTAMP) →
      ∀ fuel, l.length ≤ fuel →
        ∃ x, firstNotNewer q l = some x ∧ Bundle.walk c b q fuel p = .ok (some x.1) b := by
  intro f
  induction f with
  | zero => intro p l h; simp [Bundle.chainFrom] at h
  | succ f ih =>
    intro p l h hnull fuel hfuel
    have hne := Bundle.chainFrom_ne_nil b _ p l h
    obtain ⟨g, rfl⟩ : ∃ g, fuel = g + 1 := by
      cases l with
      | nil => exact absurd rfl hne
      | cons y ys =>
        simp only [List.length_cons] at hfuel
        exact ⟨fuel - 1, by omega⟩
    unfold Bundle.chainFrom at h
    cases p with
    | none => simp at h
    | some a =>
      simp only at h
      cases he : b.mem[a]? with
      | none => simp [he] at h
      | some e =>
        simp only [he] at h
        by_cases ht : some a = b.tail_
        · simp only [ht, if_true, Option.some.injEq] at h
          subst h
          refine ⟨(a, e), firstNotNewer_singleton q _, ?_⟩
          unfold Bundle.walk
          simp only [ht, if_true]
        · simp only [ht, if_false] at h
          cases hr : b.chainFrom f e.next_ with
          | none => simp [hr] at h
          | some rest =>
            simp only [hr, Option.map_some', Option.some.injEq] at h
            subst h
            have hrne := Bundle.chainFrom_ne_nil b f e.next_ rest hr
            obtain ⟨y, ys, rfl⟩ : ∃ y ys, rest = y :: ys := by
              cases rest with
              | nil => exact absurd rfl hrne
              | cons y ys => exact ⟨y, ys, rfl⟩
            have hdrop : ((a, e) :: y :: ys).dropLast = (a, e) :: (y :: ys).dropLast := rfl
            unfold Bundle.walk
            simp only [ht, if_false, Bundle.deref, he]
            by_cases hg : e.ts_ > q
            · have hen : e.ts_ ≠ c.BUNDLE_NULL_TIMESTAMP :=
                hnull (a, e) (by rw [hdrop]; exact List.mem_cons_self _ _)
              simp only [hg, if_true]
              rw [if_pos hen]
              obtain ⟨x, hx, hw⟩ := ih e.next_ (y :: ys) hr
                (fun z hz => hnull z (by rw [hdrop]; exact List.mem_cons_of_mem _ hz))
                g (by simp only [List.length_cons] at hfuel ⊢; omega)
              refine ⟨x, ?_, hw⟩
              rw [firstNotNewer_cons_gt q (a, e) y ys (not_le.mpr hg)]
              exact hx
            · simp only [hg, if_false]
              exact ⟨(a, e), firstNotNewer_cons_le q (a, e) y ys (not_lt.mp hg), rfl⟩

theorem Bundle.read_chain (c : Sentinels) (b : Bundle) (q : timestamp_t) (f : Nat)
    (l : List (Addr × BundleEntry)) (fuel : Nat)
    (hl : b.chain f = some l)
    (hhead : ∀ x ∈ l.head?, x.2.ts_ ≠ c.BUNDLE_PENDING_TIMESTAMP)
    (hnull : ∀ x ∈ l.dropLast, x.2.ts_ ≠ c.BUNDLE_NULL_TIMESTAMP)
    (hfuel : l.length ≤ fuel) :
    ∃ x, firstNotNewer q l = some x ∧ x ∈ l ∧ b.mem[x.1]? = some x.2 ∧
      Bundle.getPtrByTimestamp_curr c fuel b q = .ok (some x.1) b ∧
      Bundle.getPtrByTimestamp c fuel b q = .ok x.2.ptr_ b := by
  unfold Bundle.chain at hl
  have hne := Bundle.chainFrom_ne_nil b f _ l hl
  have hmem := Bundle.chainFrom_mem b f _ l hl
  have hh := Bundle.chainFrom_head? b f _ l hl
  obtain ⟨y, ys, rfl⟩ : ∃ y ys, l = y :: ys := by
    cases l with
    | nil => exact absurd rfl hne
    | cons y ys => exact ⟨y, ys, rfl⟩
  obtain ⟨g, rfl⟩ : ∃ g, fuel = g + 1 := by
    simp only [List.length_cons] at hfuel
    exact ⟨fuel - 1, by omega⟩
  have hhd : b.head_ = some y.1 := by simpa using hh.symm
  have hy : b.mem[y.1]? = some y.2 := hmem y (List.mem_cons_self _ _)
  have hderef : b.deref b.head_ = some y.2 := by rw [hhd]; exact hy
  have hfin : y.2.ts_ ≠ c.BUNDLE_PENDING_TIMESTAMP := hhead y (by simp)
  obtain ⟨x, hx, hw⟩ := Bundle.walk_chainFrom c b q f b.head_ (y :: ys) hl hnull (g + 1) hfuel
  have hxmem := firstNotNewer_mem q _ x hx
  have hcurr : Bundle.getPtrByTimestamp_curr c (g + 1) b q = .ok (some x.1) b := by
    simp only [Bundle.getPtrByTimestamp_curr, Bundle.spin_of_final c b b.head_ y.2 g hderef hfin]
    exact hw
  exact ⟨x, hx, hxmem, hmem x hxmem, hcurr,
    Bundle.getPtr_of_curr c (g + 1) b b q x.1 x.2 hcurr (hmem x hxmem)⟩

/-! ## Reachable states carry no NULL timestamp above the tail -/

theorem Bundle.chainFrom_dropLast_ne_tail (b : Bundle) :
    ∀ (fuel : Nat) (p : Option Addr) (l : List (Addr × BundleEntry)),
      b.chainFrom fuel p = some l → ∀ x ∈ l.dropLast, some x.1 ≠ b.tail_ := by
  intro fuel
  induction fuel with
  | zero => intro p l h; simp [Bundle.chainFrom] at h
  | succ f ih =>
    intro p l h x hx
    unfold Bundle.chainFrom at h
    cases p with
    | none => simp at h
    | some a =>
      simp only at h
      cases he : b.mem[a]? with
      | none => simp [he] at h
      | some e =>
        simp only [he] at h
        by_cases ht : some a = b.tail_
        · simp only [ht, if_true, Option.some.injEq] at h
          subst h
          simp at hx
        · simp only [ht, if_false] at h
          cases hr : b.chainFrom f e.next_ with
          | none => simp [hr] at h
          | some rest =>
            simp only [hr, Option.map_some', Option.some.injEq] at h
            subst h
            have hrne := Bundle.chainFrom_ne_nil b f e.next_ rest hr
            obtain ⟨y, ys, rfl⟩ : ∃ y ys, rest = y :: ys := by
              cases rest with
              | nil => exact absurd rfl hrne
              | cons y ys => exact ⟨y, ys, rfl⟩
            have hdrop : ((a, e) :: y :: ys).dropLast = (a, e) :: (y :: ys).dropLast := rfl
            rw [hdrop] at hx
            rcases List.mem_cons.mp hx with h1 | h1
            · subst h1
              exact ht
            · exact ih e.next_ (y :: ys) hr x h1

theorem Bundle.nonull_call (c : Sentinels) (fuel : Nat) (b b1 : Bundle) (L n : Nat)
    (k : Call) (v : Option NodePtr)
    (hc : c.BUNDLE_NULL_TIMESTAMP ≠ c.BUNDLE_PENDING_TIMESTAMP)
    (hs : Bundle.Stacked c b L n) (hn : Bundle.NoNullAbove c b L n)
    (hk : ∀ ts, k = Call.finalize ts → ts ≠ c.BUNDLE_NULL_TIMESTAMP)
    (h : Bundle.call c fuel b k = .ok v b1) :
    ∃ n1, Bundle.Stacked c b1 L n1 ∧ Bundle.NoNullAbove c b1 L n1 := by
  cases k with
  | prepare ptr =>
    simp only [Bundle.call] at h
    cases hp : Bundle.prepare c fuel b ptr with
    | ok u s =>
      rw [hp] at h
      cases h
      obtain ⟨⟨e, he, hfin⟩, hst⟩ := Bundle.prepare_ok_inv c fuel b _ ptr u hp
      rw [hst]
      refine ⟨n + 1, Bundle.stacked_prepare c b L n ptr e hs he hfin, ?_⟩
      intro i hi
      simp only [Bundle.committed]
      rcases Nat.eq_or_lt_of_le (Nat.le_of_lt_succ hi) with heq | hlt
      · subst heq
        have hlen : b.mem.length = L + i + 1 := hs.len_eq
        rw [← hlen, List.getElem?_concat_length]
        exact ⟨_, rfl, fun h => hc h.symm⟩
      · obtain ⟨e1, h1, h2⟩ := hn i hlt
        have hlen : L + i + 1 < b.mem.length := by rw [hs.len_eq]; omega
        rw [List.getElem?_append_left hlen]
        exact ⟨e1, h1, h2⟩
    | abort s => rw [hp] at h; cases h
    | fault => rw [hp] at h; cases h
    | timeout => rw [hp] at h; cases h
  | finalize ts =>
    simp only [Bundle.call] at h
    cases hp : Bundle.finalize c b ts with
    | ok u s =>
      rw [hp] at h
      cases h
      obtain ⟨a, e, ha, he, _, hst⟩ := Bundle.finalize_ok_inv c b _ ts u hp
      rw [hst]
      refine ⟨n, Bundle.stacked_finalize c b L n ts a e hs ha he, ?_⟩
      intro i hi
      obtain ⟨e1, h1, h2⟩ := hn i hi
      simp only [List.getElem?_set]
      by_cases hai : a = L + i + 1
      · have hlt : L + i + 1 < b.mem.length := by rw [hs.len_eq]; omega
        simp only [hai, if_true, hlt]
        exact ⟨_, rfl, hk ts rfl⟩
      · simp only [hai, if_false]
        exact ⟨e1, h1, h2⟩
    | abort s => rw [hp] at h; cases h
    | fault => rw [hp] at h; cases h
    | timeout => rw [hp] at h; cases h
  | getPtrByTimestamp ts =>
    simp only [Bundle.call] at h
    cases hp : Bundle.getPtrByTimestamp c fuel b ts with
    | ok u s =>
      rw [hp] at h
      cases h
      rw [Bundle.getPtr_ok_inv c fuel b _ ts u hp]
      exact ⟨n, hs, hn⟩
    | abort s => rw [hp] at h; cases h
    | fault => rw [hp] at h; cases h
    | timeout => rw [hp] at h; cases h

theorem Bundle.nonull_run (c : Sentinels) (fuel : Nat) (L : Nat)
    (hc : c.BUNDLE_NULL_TIMESTAMP ≠ c.BUNDLE_PENDING_TIMESTAMP) (calls : List Call) :
    ∀ (b b1 : Bundle) (n : Nat) (u : Unit), RealCalls c calls →
      Bundle.Stacked c b L n → Bundle.NoNullAbove c b L n →
      Bundle.run c fuel b calls = .ok u b1 →
      ∃ n1, Bundle.Stacked c b1 L n1 ∧ Bundle.NoNullAbove c b1 L n1 := by
  induction calls with
  | nil =>
    intro b b1 n u _ hs hn h
    simp only [Bundle.run] at h
    cases h
    exact ⟨n, hs, hn⟩
  | cons k rest ih =>
    intro b b1 n u hreal hs hn h
    obtain ⟨v, s, hk, hrest⟩ := Bundle.run_cons_ok c fuel b b1 k rest u h
    obtain ⟨n1, hs1, hn1⟩ := Bundle.nonull_call c fuel b s L n k v hc hs hn
      (fun ts hts => (hreal ts (by rw [hts]; exact List.mem_cons_self _ _)).1) hk
    exact ih s b1 n1 u (fun ts hts => hreal ts (List.mem_cons_of_mem _ hts)) hs1 hn1 hrest

theorem Bundle.getPtr_of_pending (c : Sentinels) (b : Bundle) (q : timestamp_t)
    (e : BundleEntry) (he : b.deref b.head_ = some e)
    (hp : e.ts_ = c.BUNDLE_PENDING_TIMESTAMP) (fuel : Nat) :
    Bundle.getPtrByTimestamp c fuel b q = .timeout := by
  simp only [Bundle.getPtrByTimestamp, Bundle.getPtrByTimestamp_curr,
    Bundle.spin_of_pending c b b.head_ e he hp fuel]

theorem Bundle.chainFrom_length_le (b : Bundle) :
    ∀ (fuel : Nat) (p : Option Addr) (l : List (Addr × BundleEntry)),
      b.chainFrom fuel p = some l → l.length ≤ fuel := by
  intro fuel
  induction fuel with
  | zero => intro p l h; simp [Bundle.chainFrom] at h
  | succ f ih =>
    intro p l h
    unfold Bundle.chainFrom at h
    cases p with
    | none => simp at h
    | some a =>
      simp only at h
      cases he : b.mem[a]? with
      | none => simp [he] at h
      | some e =>
        simp only [he] at h
        by_cases ht : some a = b.tail_
        · simp only [ht, if_true, Option.some.injEq] at h
          subst h
          simp
        · simp only [ht, if_false] at h
          cases hr : b.chainFrom f e.next_ with
          | none => simp [hr] at h
          | some rest =>
            simp only [hr, Option.map_some', Option.some.injEq] at h
            subst h
            have := ih e.next_ rest hr
            simp only [List.length_cons]
            omega

/-- An address between `L` and `L + n` is `L + i` for some `i ≤ n`. -/
theorem exists_offset (L n a : Nat) (h1 : L ≤ a) (h2 : a ≤ L + n) :
    ∃ i, L + i = a ∧ i ≤ n :=
  ⟨a - L, by omega, by omega⟩

/-! ## The entry selected in a built bundle -/

/-- On a bundle built from strictly increasing real timestamps every read returns: it
selects the address `L + m` where `m` is 0 (the tail) or the entry of index `m - 1` is not
newer than the query, and the entry of index `m`, if any, is newer. -/
theorem Bundle.select_built (c : Sentinels) (b : Bundle) (L : Nat)
    (pairs : List (NodePtr × timestamp_t)) (hb : Bundle.Built c b L pairs)
    (hc : c.BUNDLE_NULL_TIMESTAMP ≠ c.BUNDLE_PENDING_TIMESTAMP)
    (hreal : RealTimestamps c pairs) (hinc : StrictlyIncreasing pairs)
    (q : timestamp_t) (fuel : Nat) (hfuel : pairs.length + 1 ≤ fuel) :
    ∃ m, m ≤ pairs.length ∧
      Bundle.getPtrByTimestamp_curr c fuel b q = .ok (some (L + m)) b ∧
      (∃ p, Bundle.getPtrByTimestamp c fuel b q = .ok p b) ∧
      (m = 0 ∨ ∃ pt, pairs[m - 1]? = some pt ∧ pt.2 ≤ q) ∧
      (∀ pt, pairs[m]? = some pt → q < pt.2) := by
  by_cases hex : ∃ k0, ∃ hk0 : k0 < pairs.length, (pairs[k0]).2 ≤ q
  · obtain ⟨k0, hk0, hle0⟩ := hex
    obtain ⟨k, hk, _, hkle, hknext⟩ := exists_last_le pairs q pairs.length k0 hk0
      (Nat.sub_le _ _) hle0
    obtain ⟨hcurr, hptr⟩ := Bundle.read_built_entry c b L pairs hb hc hreal hinc q fuel hfuel
      k hk hkle hknext
    exact ⟨k + 1, hk, hcurr, ⟨_, hptr⟩,
      Or.inr ⟨pairs[k], List.getElem?_eq_getElem hk, hkle⟩, hknext⟩
  · have hnext : ∀ pt, pairs[0]? = some pt → q < pt.2 := by
      intro pt hpt
      obtain ⟨h0, hval⟩ := List.getElem?_eq_some.mp hpt
      by_contra hlt
      exact hex ⟨0, h0, by rw [hval]; exact not_lt.mp hlt⟩
    obtain ⟨hcurr, hptr⟩ := Bundle.read_built_tail c b L pairs hb hc hreal hinc q fuel hfuel
      hnext
    exact ⟨0, Nat.zero_le _, hcurr, ⟨_, hptr⟩, Or.inl rfl, hnext⟩

theorem addrsDown_getElem? (L : Nat) :
    ∀ (k j : Nat), j ≤ k → (addrsDown L k)[j]? = some (L + (k - j)) := by
  intro k
  induction k with
  | zero =>
    intro j hj
    have hj0 : j = 0 := by omega
    subst hj0
    rfl
  | succ k ih =>
    intro j hj
    cases j with
    | zero => simp [addrsDown, Nat.add_assoc]
    | succ j =>
      simp only [addrsDown, List.getElem?_cons_succ]
      rw [ih j (by omega)]
      congr 2
      omega

/-! ## Claims -/

/-- C1: after `init()` and `prepare(p_i); finalize(t_i)` for strictly increasing real
timestamps, `getPtrByTimestamp(t_k)` returns `p_k`; a query `t` with `t_k ≤ t < t_(k+1)`
returns `p_k`; a query at or above the last timestamp returns the last pointer; a query
below the first timestamp, and every query when no pair was committed, returns the null
pointer stored in the tail by `init`. -/
theorem C1_point_in_time_reads (c : Sentinels) (b0 : Bundle)
    (pairs : List (NodePtr × timestamp_t)) (fuel : Nat)
    (hc : c.BUNDLE_NULL_TIMESTAMP ≠ c.BUNDLE_PENDING_TIMESTAMP)
    (hreal : RealTimestamps c pairs) (hinc : StrictlyIncreasing pairs)
    (hfuel : pairs.length + 2 ≤ fuel) :
    ∃ b, Bundle.run c fuel (Bundle.init c b0) (commitCalls pairs) = .ok () b ∧
      (∀ k (hk : k < pairs.length),
        Bundle.getPtrByTimestamp c fuel b (pairs[k]).2 = .ok (pairs[k]).1 b) ∧
      (∀ k (hk : k + 1 < pairs.length) (t : timestamp_t),
        (pairs[k]).2 ≤ t → t < (pairs[k + 1]).2 →
        Bundle.getPtrByTimestamp c fuel b t = .ok (pairs[k]).1 b) ∧
      (∀ (hne : pairs ≠ []) (t : timestamp_t), (pairs.getLast hne).2 ≤ t →
        Bundle.getPtrByTimestamp c fuel b t = .ok (pairs.getLast hne).1 b) ∧
      (∀ t : timestamp_t, (∀ pt ∈ pairs.head?, t < pt.2) →
        Bundle.getPtrByTimestamp c fuel b t = .ok none b) := by
  obtain ⟨b, hrun, hb⟩ := Bundle.built_run c b0 pairs fuel hc hreal (by omega)
  have hentry := Bundle.read_built_entry c b b0.mem.length pairs hb hc hreal hinc
  have hnextlt : ∀ (k : Nat) (hk : k < pairs.length) (q : timestamp_t), q ≤ (pairs[k]).2 →
      ∀ pt, pairs[k + 1]? = some pt → q < pt.2 := by
    intro k hk q hq pt hpt
    exact lt_of_le_of_lt hq (increasing_getElem? pairs hinc k (k + 1) _ _
      (List.getElem?_eq_getElem hk) hpt (by omega))
  refine ⟨b, hrun, ?_, ?_, ?_, ?_⟩
  · intro k hk
    exact (hentry _ fuel (by omega) k hk (le_refl _) (hnextlt k hk _ (le_refl _))).2
  · intro k hk t hle hlt
    refine (hentry t fuel (by omega) k (by omega) hle ?_).2
    intro pt hpt
    rw [List.getElem?_eq_getElem hk] at hpt
    cases hpt
    exact hlt
  · intro hne t hle
    have hpos : 0 < pairs.length := List.length_pos.mpr hne
    have hlast : pairs.getLast hne = pairs[pairs.length - 1] := List.getLast_eq_getElem pairs hne
    rw [hlast] at hle ⊢
    refine (hentry t fuel (by omega) (pairs.length - 1) (by omega) hle ?_).2
    intro pt hpt
    have hnone : pairs[pairs.length - 1 + 1]? = none := List.getElem?_eq_none (by omega)
    rw [hnone] at hpt
    cases hpt
  · intro t ht
    refine (Bundle.read_built_tail c b b0.mem.length pairs hb hc hreal hinc t fuel
      (by omega) ?_).2
    intro pt hpt
    exact ht pt (by rw [List.head?_eq_getElem?]; exact hpt)

/-- C1 on the scenario of the specification: `init; prepare(A); finalize(10); prepare(B);
finalize(20)` gives 20 to B, 15 to A, 10 to A, 9 and 5 to the tail's null pointer. -/
theorem C1_point_in_time_reads_witness :
    ∃ b, Bundle.run exampleSentinels 4 (Bundle.init exampleSentinels Bundle.fresh)
        (commitCalls [(some 1, 10), (some 2, 20)]) = .ok () b ∧
      Bundle.getPtrByTimestamp exampleSentinels 4 b 20 = .ok (some 2) b ∧
      Bundle.getPtrByTimestamp exampleSentinels 4 b 15 = .ok (some 1) b ∧
      Bundle.getPtrByTimestamp exampleSentinels 4 b 10 = .ok (some 1) b ∧
      Bundle.getPtrByTimestamp exampleSentinels 4 b 9 = .ok none b ∧
      Bundle.getPtrByTimestamp exampleSentinels 4 b 5 = .ok none b := by
  obtain ⟨b, hrun, h1, h2, _, h4⟩ := C1_point_in_time_reads exampleSentinels Bundle.fresh
    [(some 1, 10), (some 2, 20)] 4 (by decide) (by simp [RealTimestamps, exampleSentinels])
    (by simp [StrictlyIncreasing]) (by decide)
  exact ⟨b, hrun, h1 1 (by decide), h2 0 (by decide) 15 (by decide) (by decide),
    h1 0 (by decide), h4 9 (by simp), h4 5 (by simp)⟩

/-- C2 (no rollback): run `init()` and commit pairs with strictly increasing real
timestamps; let `h` be the head once `finalize(ts)` has returned (the entry finalized at
`ts`), and commit any further pairs. Then every read at `t' ≥ ts` returns, and the entry it
selects is the one committed `j` pairs after `ts` for some `j ≥ 0`: it sits at address
`h + j`, carries the pointer and timestamp of that pair, its timestamp lies between `ts`
and `t'`, and it is not the tail. -/
theorem C2_no_rollback (c : Sentinels) (b0 : Bundle)
    (pre post : List (NodePtr × timestamp_t)) (p : NodePtr) (ts : timestamp_t) (fuel : Nat)
    (hc : c.BUNDLE_NULL_TIMESTAMP ≠ c.BUNDLE_PENDING_TIMESTAMP)
    (hreal : RealTimestamps c (pre ++ (p, ts) :: post))
    (hinc : StrictlyIncreasing (pre ++ (p, ts) :: post))
    (hfuel : (pre ++ (p, ts) :: post).length + 2 ≤ fuel)
    (t' : timestamp_t) (ht : ts ≤ t') :
    ∃ bmid b h j e,
      Bundle.run c fuel (Bundle.init c b0) (commitCalls (pre ++ [(p, ts)])) = .ok () bmid ∧
      bmid.head_ = some h ∧
      bmid.mem[h]? = some { ts_ := ts, ptr_ := p, next_ := some (h - 1),
                            deleted_ts_ := c.BUNDLE_NULL_TIMESTAMP } ∧
      Bundle.run c fuel bmid (commitCalls post) = .ok () b ∧
      Bundle.getPtrByTimestamp_curr c fuel b t' = .ok (some (h + j)) b ∧
      b.mem[h + j]? = some e ∧
      Bundle.getPtrByTimestamp c fuel b t' = .ok e.ptr_ b ∧
      ((p, ts) :: post)[j]? = some (e.ptr_, e.ts_) ∧
      ts ≤ e.ts_ ∧ e.ts_ ≤ t' ∧ some (h + j) ≠ b.tail_ := by
  have hrealmid : RealTimestamps c (pre ++ [(p, ts)]) := by
    intro x hx
    apply hreal x
    rcases List.mem_append.mp hx with h | h
    · exact List.mem_append_left _ h
    · rw [List.mem_singleton.mp h]
      exact List.mem_append_right _ (List.mem_cons_self _ _)
  obtain ⟨bmid, hrunmid, hbmid⟩ := Bundle.built_run c b0 (pre ++ [(p, ts)]) fuel hc hrealmid
    (by omega)
  have hall : (pre ++ [(p, ts)]) ++ post = pre ++ (p, ts) :: post := by simp
  obtain ⟨b, hrun, hb⟩ := Bundle.run_commitCalls c fuel b0.mem.length hc (by omega) post bmid
    (pre ++ [(p, ts)]) hbmid (by rw [hall]; exact fun x hx => (hreal x hx).2)
  rw [hall] at hb
  have hlenmid : (pre ++ [(p, ts)]).length = pre.length + 1 := by simp
  have hk0 : pre.length < (pre ++ (p, ts) :: post).length := by simp
  have hatq : (pre ++ (p, ts) :: post)[pre.length]? = some (p, ts) := by
    rw [List.getElem?_append_right (Nat.le_refl _), Nat.sub_self]
    exact List.getElem?_cons_zero
  have hat : (pre ++ (p, ts) :: post)[pre.length] = (p, ts) := List.getElem_eq_iff.mpr hatq
  obtain ⟨k, hk, hk0k, hkle, hknext⟩ := exists_last_le (pre ++ (p, ts) :: post) t'
    (pre ++ (p, ts) :: post).length pre.length hk0 (by omega) (by rw [hat]; exact ht)
  obtain ⟨hcurr, hget⟩ := Bundle.read_built_entry c b b0.mem.length _ hb hc hreal hinc t' fuel
    (by omega) k hk hkle hknext
  have hkget : (pre ++ (p, ts) :: post)[k]? = some (pre ++ (p, ts) :: post)[k] :=
    List.getElem?_eq_getElem hk
  have hent := hb.entry k _ _ hkget
  have hidx : b0.mem.length + k + 1 = b0.mem.length + (pre.length + 1) + (k - pre.length) := by
    omega
  have htsle : ts ≤ ((pre ++ (p, ts) :: post)[k]).2 := by
    rcases Nat.eq_or_lt_of_le hk0k with h | h
    · have hval : (pre ++ (p, ts) :: post)[k]? = some (p, ts) := by
        rw [← h]; exact hatq
      rw [hkget] at hval
      rw [Option.some.inj hval]
    · have hlt := increasing_getElem? _ hinc pre.length k (p, ts) _ hatq hkget h
      exact le_of_lt hlt
  refine ⟨bmid, b, b0.mem.length + (pre.length + 1), k - pre.length,
    { ts_ := ((pre ++ (p, ts) :: post)[k]).2, ptr_ := ((pre ++ (p, ts) :: post)[k]).1,
      next_ := some (b0.mem.length + k), deleted_ts_ := c.BUNDLE_NULL_TIMESTAMP },
    hrunmid, ?_, ?_, hrun, ?_, ?_, ?_, ?_, htsle, hkle, ?_⟩
  · rw [hbmid.head_eq, hlenmid]
  · have h1 := hbmid.entry pre.length p ts (by
      rw [List.getElem?_append_right (Nat.le_refl _), Nat.sub_self]
      exact List.getElem?_cons_zero)
    have h2 : b0.mem.length + (pre.length + 1) - 1 = b0.mem.length + pre.length := by omega
    rw [h2]
    exact h1
  · rw [← hidx]; exact hcurr
  · rw [← hidx]; exact hent
  · exact hget
  · have h1 : (pre ++ (p, ts) :: post)[k]? = ((p, ts) :: post)[k - pre.length]? :=
      List.getElem?_append_right hk0k
    rw [← h1, hkget]
  · rw [hb.tail_eq]
    intro h
    have h1 : b0.mem.length + (pre.length + 1) + (k - pre.length) = b0.mem.length :=
      Option.some.inj h
    omega

/-- C2 on a concrete run: after `init; prepare(A); finalize(10); prepare(B); finalize(20);
prepare(C); finalize(30)`, the read at 25 (at least 20) selects an entry at or above the
one finalized at 20. -/
theorem C2_no_rollback_witness :
    ∃ bmid b h j e,
      Bundle.run exampleSentinels 5 (Bundle.init exampleSentinels Bundle.fresh)
        (commitCalls ([(some 1, 10)] ++ [(some 2, 20)])) = .ok () bmid ∧
      bmid.head_ = some h ∧
      bmid.mem[h]? = some { ts_ := 20, ptr_ := some 2, next_ := some (h - 1),
                            deleted_ts_ := exampleSentinels.BUNDLE_NULL_TIMESTAMP } ∧
      Bundle.run exampleSentinels 5 bmid (commitCalls [(some 3, 30)]) = .ok () b ∧
      Bundle.getPtrByTimestamp_curr exampleSentinels 5 b 25 = .ok (some (h + j)) b ∧
      b.mem[h + j]? = some e ∧
      Bundle.getPtrByTimestamp exampleSentinels 5 b 25 = .ok e.ptr_ b ∧
      ((some 2, 20) :: [(some 3, 30)])[j]? = some (e.ptr_, e.ts_) ∧
      20 ≤ e.ts_ ∧ e.ts_ ≤ 25 ∧ some (h + j) ≠ b.tail_ :=
  C2_no_rollback exampleSentinels Bundle.fresh [(some 1, 10)] [(some 3, 30)] (some 2) 20 5
    (by decide) (by simp [RealTimestamps, exampleSentinels]) (by simp [StrictlyIncreasing])
    (by decide) 25 (by decide)

/-- C3, refuted on two concrete runs of completed pairs with strictly increasing
timestamps. With the timestamps -7 and -3, below the NULL timestamp 0, the chain carries
-3, -7, 0 from head to tail, which is not strictly descending. With the timestamps 0 (the
NULL timestamp) and 5 the chain carries 5, 0, 0, which is neither pairwise distinct nor
strictly descending. -/
theorem C3_counterexample :
    (StrictlyIncreasing [(some 1, -7), (some 2, -3)] ∧
      Bundle.run exampleSentinels 4 (Bundle.init exampleSentinels Bundle.fresh)
        (commitCalls [(some 1, -7), (some 2, -3)]) = .ok () exampleNegativeCommits ∧
      (exampleNegativeCommits.chain 4).map (fun l => l.map (fun x => x.2.ts_))
        = some [-3, -7, 0] ∧
      ¬ List.Pairwise (fun s t : timestamp_t => s > t) [-3, -7, 0]) ∧
    (StrictlyIncreasing [(some 1, 0), (some 2, 5)] ∧
      Bundle.run exampleSentinels 4 (Bundle.init exampleSentinels Bundle.fresh)
        (commitCalls [(some 1, 0), (some 2, 5)]) = .ok () exampleNullCommit ∧
      (exampleNullCommit.chain 4).map (fun l => l.map (fun x => x.2.ts_))
        = some [5, 0, 0] ∧
      ¬ List.Nodup ([5, 0, 0] : List timestamp_t) ∧
      ¬ List.Pairwise (fun s t : timestamp_t => s > t) [5, 0, 0]) := by
  refine ⟨⟨?_, by decide, by decide, by decide⟩, ⟨?_, by decide, by decide, by decide,
    by decide⟩⟩
  · unfold StrictlyIncreasing
    decide
  · unfold StrictlyIncreasing
    decide

/-- C3 as amended: after `init()` and any number of completed `prepare`/`finalize` pairs
whose timestamps are real (neither sentinel) and strictly increasing, following `next_`
from the head reaches the tail; the `ts_` values met on the way are the committed
timestamps, newest first, followed by the NULL timestamp of the tail; they are pairwise
distinct, none is PENDING, and they are strictly descending over the entries before the
tail; the descent extends through the tail exactly when every committed timestamp exceeds
the NULL sentinel. -/
theorem C3_quiescent_shape (c : Sentinels) (b0 : Bundle)
    (pairs : List (NodePtr × timestamp_t)) (fuel : Nat)
    (hc : c.BUNDLE_NULL_TIMESTAMP ≠ c.BUNDLE_PENDING_TIMESTAMP)
    (hreal : RealTimestamps c pairs) (hinc : StrictlyIncreasing pairs)
    (hfuel : pairs.length + 2 ≤ fuel) :
    ∃ b l, Bundle.run c fuel (Bundle.init c b0) (commitCalls pairs) = .ok () b ∧
      b.chain fuel = some l ∧
      l.map (fun x => x.2.ts_) = pairs.reverse.map Prod.snd ++ [c.BUNDLE_NULL_TIMESTAMP] ∧
      (l.map (fun x => x.2.ts_)).Nodup ∧
      ((l.map (fun x => x.2.ts_)).dropLast).Pairwise (fun s t => s > t) ∧
      ((l.map (fun x => x.2.ts_)).Pairwise (fun s t => s > t) ↔
        ∀ pt ∈ pairs, c.BUNDLE_NULL_TIMESTAMP < pt.2) ∧
      (∀ x ∈ l, x.2.ts_ ≠ c.BUNDLE_PENDING_TIMESTAMP) ∧
      l.head?.map Prod.fst = b.head_ ∧
      l.getLast?.map Prod.fst = b.tail_ := by
  obtain ⟨b, hrun, hb⟩ := Bundle.built_run c b0 pairs fuel hc hreal (by omega)
  have hchain : b.chain fuel = some (builtChain c b0.mem.length pairs pairs.length) := by
    unfold Bundle.chain
    rw [hb.head_eq]
    exact Bundle.chainFrom_built c b b0.mem.length pairs hb pairs.length fuel (le_refl _)
      (by omega)
  have hts := builtChain_ts c b0.mem.length pairs pairs.length (le_refl _)
  rw [List.take_length] at hts
  have hdesc : (pairs.reverse.map Prod.snd).Pairwise (fun s t => s > t) := by
    rw [List.pairwise_map, List.pairwise_reverse]
    exact hinc
  have hmem : ∀ t ∈ pairs.reverse.map Prod.snd, ∃ pt ∈ pairs, pt.2 = t := by
    intro t ht
    obtain ⟨pt, hpt, rfl⟩ := List.mem_map.mp ht
    exact ⟨pt, List.mem_reverse.mp hpt, rfl⟩
  refine ⟨b, _, hrun, hchain, hts, ?_, ?_, ?_, ?_, ?_, ?_⟩
  · rw [hts]
    refine List.Nodup.append (hdesc.imp (fun h => ne_of_gt h)) (List.nodup_singleton _) ?_
    intro t ht hnull
    obtain ⟨pt, hpt, rfl⟩ := hmem t ht
    exact (hreal pt hpt).1 (List.mem_singleton.mp hnull)
  · rw [hts, List.dropLast_concat]
    exact hdesc
  · rw [hts, List.pairwise_append]
    constructor
    · intro hall pt hpt
      have hin : pt.2 ∈ pairs.reverse.map Prod.snd :=
        List.mem_map_of_mem _ (List.mem_reverse.mpr hpt)
      exact hall.2.2 pt.2 hin c.BUNDLE_NULL_TIMESTAMP (List.mem_singleton.mpr rfl)
    · intro hpos
      refine ⟨hdesc, List.pairwise_singleton _ _, ?_⟩
      intro s hs t ht
      obtain ⟨pt, hpt, rfl⟩ := hmem s hs
      rw [List.mem_singleton.mp ht]
      exact hpos pt hpt
  · intro x hx
    have hx1 : x.2.ts_ ∈ (builtChain c b0.mem.length pairs pairs.length).map
        (fun x => x.2.ts_) := List.mem_map_of_mem _ hx
    rw [hts] at hx1
    rcases List.mem_append.mp hx1 with h | h
    · obtain ⟨pt, hpt, heq⟩ := hmem _ h
      rw [← heq]
      exact (hreal pt hpt).2
    · rw [List.mem_singleton.mp h]
      exact hc
  · rw [hb.head_eq]
    exact builtChain_head? c b0.mem.length pairs pairs.length (le_refl _)
  · rw [hb.tail_eq]
    exact builtChain_getLast? c b0.mem.length pairs pairs.length

/-- C3 as amended, on the scenario `init; prepare(A); finalize(10); prepare(B);
finalize(20)`: the chain carries the timestamps 20, 10 and the tail's NULL timestamp, in
that order, and is strictly descending through the tail since 10 and 20 exceed NULL. -/
theorem C3_quiescent_shape_witness :
    ∃ b l, Bundle.run exampleSentinels 4 (Bundle.init exampleSentinels Bundle.fresh)
        (commitCalls [(some 1, 10), (some 2, 20)]) = .ok () b ∧
      b.chain 4 = some l ∧
      l.map (fun x => x.2.ts_) = [20, 10, 0] ∧
      (l.map (fun x => x.2.ts_)).Nodup ∧
      ((l.map (fun x => x.2.ts_)).dropLast).Pairwise (fun s t => s > t) ∧
      (l.map (fun x => x.2.ts_)).Pairwise (fun s t => s > t) ∧
      l.head?.map Prod.fst = b.head_ ∧
      l.getLast?.map Prod.fst = b.tail_ := by
  obtain ⟨b, l, h1, h2, h3, h4, h5, h6, _, h8, h9⟩ := C3_quiescent_shape exampleSentinels
    Bundle.fresh [(some 1, 10), (some 2, 20)] 4 (by decide)
    (by simp [RealTimestamps, exampleSentinels]) (by simp [StrictlyIncreasing]) (by decide)
  exact ⟨b, l, h1, h2, h3, h4, h5, h6.mpr (by simp [exampleSentinels]), h8, h9⟩

/-- C4: in every state reached from `init()` by calls of `prepare`, `finalize` (and
`getPtrByTimestamp`) that all returned, the chain from the head reaches the tail and no
entry after the head is PENDING, so at most one entry of the chain is PENDING and it can
only be the head; and whenever `prepare` then links a new entry, that entry is the new
PENDING head and its `next_` is the previous head, whose `ts_` is not PENDING. -/
theorem C4_pending_only_at_head (c : Sentinels) (fuel : Nat) (b0 b : Bundle)
    (calls : List Call)
    (hrun : Bundle.run c fuel (Bundle.init c b0) calls = .ok () b) :
    (∃ l, b.chain b.mem.length = some l ∧ l.head?.map Prod.fst = b.head_ ∧
      (∀ x ∈ l.tail, x.2.ts_ ≠ c.BUNDLE_PENDING_TIMESTAMP) ∧
      (l.filter (fun x => decide (x.2.ts_ = c.BUNDLE_PENDING_TIMESTAMP))).length ≤ 1) ∧
    (∀ ptr b1, Bundle.prepare c fuel b ptr = .ok () b1 →
      ∃ e s, b1.deref b1.head_ = some e ∧ e.ts_ = c.BUNDLE_PENDING_TIMESTAMP ∧
        e.ptr_ = ptr ∧ e.next_ = b.head_ ∧
        b1.deref e.next_ = some s ∧ s.ts_ ≠ c.BUNDLE_PENDING_TIMESTAMP) := by
  obtain ⟨n, hs⟩ := Bundle.stacked_run c fuel b0.mem.length calls _ b 0 ()
    (Bundle.stacked_init c b0) hrun
  constructor
  · obtain ⟨e, rest, hchain, _, hrest⟩ := Bundle.chainFrom_stacked c b b0.mem.length n hs n
      b.mem.length (le_refl _) (by rw [hs.len_eq]; omega)
    have htail : ∀ x ∈ rest, x.2.ts_ ≠ c.BUNDLE_PENDING_TIMESTAMP := by
      intro x hx
      obtain ⟨h1, h2, h3⟩ := hrest x hx
      obtain ⟨i, hi⟩ : ∃ i, x.1 = b0.mem.length + i := ⟨x.1 - b0.mem.length, by omega⟩
      obtain ⟨e1, he1, hfin⟩ := hs.final i (by omega)
      rw [hi, he1] at h3
      cases h3
      exact hfin
    refine ⟨(b0.mem.length + n, e) :: rest, ?_, ?_, htail, ?_⟩
    · unfold Bundle.chain
      rw [hs.head_eq]
      exact hchain
    · rw [hs.head_eq]
      rfl
    · have hnil : rest.filter (fun x => decide (x.2.ts_ = c.BUNDLE_PENDING_TIMESTAMP)) = [] := by
        rw [List.filter_eq_nil_iff]
        intro x hx
        simpa using htail x hx
      rw [List.filter_cons]
      split
      · rw [hnil]; simp
      · rw [hnil]; simp
  · intro ptr b1 hp
    obtain ⟨⟨e, he, hfin⟩, hst⟩ := Bundle.prepare_ok_inv c fuel b b1 ptr () hp
    subst hst
    refine ⟨BundleEntry.mk c.BUNDLE_PENDING_TIMESTAMP ptr b.head_ c.BUNDLE_NULL_TIMESTAMP, e,
      ?_, rfl, rfl, rfl, ?_, hfin⟩
    · simp [Bundle.deref, Bundle.committed]
    · cases hh : b.head_ with
      | none => rw [hh] at he; simp [Bundle.deref] at he
      | some a =>
        rw [hh] at he
        simp only [Bundle.deref, Bundle.committed] at he ⊢
        have hlt : a < b.mem.length := (List.getElem?_eq_some.mp he).1
        rw [List.getElem?_append_left hlt]
        exact he

/-- C4 on the run `init; prepare(A); finalize(10); prepare(B)`, which ends with a PENDING
head above the finalized entry of A. -/
theorem C4_pending_only_at_head_witness :
    Bundle.run exampleSentinels 3 (Bundle.init exampleSentinels Bundle.fresh)
        [Call.prepare (some 1), Call.finalize 10, Call.prepare (some 2)]
      = .ok () examplePendingState ∧
    ((∃ l, examplePendingState.chain examplePendingState.mem.length = some l ∧
      l.head?.map Prod.fst = examplePendingState.head_ ∧
      (∀ x ∈ l.tail, x.2.ts_ ≠ exampleSentinels.BUNDLE_PENDING_TIMESTAMP) ∧
      (l.filter (fun x =>
        decide (x.2.ts_ = exampleSentinels.BUNDLE_PENDING_TIMESTAMP))).length ≤ 1) ∧
    (∀ ptr b1, Bundle.prepare exampleSentinels 3 examplePendingState ptr = .ok () b1 →
      ∃ e s, b1.deref b1.head_ = some e ∧
        e.ts_ = exampleSentinels.BUNDLE_PENDING_TIMESTAMP ∧
        e.ptr_ = ptr ∧ e.next_ = examplePendingState.head_ ∧
        b1.deref e.next_ = some s ∧ s.ts_ ≠ exampleSentinels.BUNDLE_PENDING_TIMESTAMP)) :=
  ⟨by decide, C4_pending_only_at_head exampleSentinels 3 Bundle.fresh examplePendingState
    [Call.prepare (some 1), Call.finalize 10, Call.prepare (some 2)] (by decide)⟩

/-- C5: on a state whose head entry is not PENDING, `finalize(ts)` fails its assertion for
every `ts`: it does not return and the state at the failure is the state before the call,
so no field of any entry was written; on a state whose head entry is PENDING it returns. -/
theorem C5_finalize_needs_pending_head (c : Sentinels) (b : Bundle) (e : BundleEntry)
    (ts : timestamp_t) (he : b.deref b.head_ = some e) :
    (e.ts_ ≠ c.BUNDLE_PENDING_TIMESTAMP → Bundle.finalize c b ts = .abort b) ∧
    (e.ts_ = c.BUNDLE_PENDING_TIMESTAMP → ∃ b1, Bundle.finalize c b ts = .ok () b1) := by
  cases hh : b.head_ with
  | none => rw [hh] at he; simp [Bundle.deref] at he
  | some a =>
    rw [hh] at he
    simp only [Bundle.deref] at he
    constructor
    · intro hne
      simp [Bundle.finalize, hh, he, hne]
    · intro hp
      refine ⟨{ b with mem := b.mem.set a { e with ts_ := ts } }, ?_⟩
      simp [Bundle.finalize, hh, he, hp]

/-- C5 directly after `init()` (the head is the tail, whose timestamp is NULL) and on a
state with a PENDING head. -/
theorem C5_finalize_needs_pending_head_witness :
    Bundle.finalize exampleSentinels (Bundle.init exampleSentinels Bundle.fresh) 10
      = .abort (Bundle.init exampleSentinels Bundle.fresh) ∧
    ∃ b1, Bundle.finalize exampleSentinels examplePendingState 20 = .ok () b1 :=
  ⟨(C5_finalize_needs_pending_head exampleSentinels (Bundle.init exampleSentinels Bundle.fresh)
      { ts_ := 0, ptr_ := none, next_ := none, deleted_ts_ := 0 } 10 (by decide)).1 (by decide),
   (C5_finalize_needs_pending_head exampleSentinels examplePendingState
      { ts_ := 1000, ptr_ := some 2, next_ := some 1, deleted_ts_ := 0 } 20 (by decide)).2
      (by decide)⟩

/-- C6, refuted on a concrete state: on the state reached by `init; prepare(A);
finalize(10); prepare(B)` (PENDING head above an entry finalized at 10), `finalize(5)`
returns normally and leaves the head with timestamp 5 below its successor's 10; the
process does not halt. `validate()` on that head would exit, but `finalize` does not call
it, and a read at 7 then returns B. -/
theorem C6_counterexample :
    Bundle.finalize exampleSentinels examplePendingState 5 = .ok () exampleOutOfOrderState ∧
    BundleEntry.validate exampleOutOfOrderState.mem 2 = .abort exampleOutOfOrderState.mem ∧
    Bundle.getPtrByTimestamp exampleSentinels 3 exampleOutOfOrderState 7
      = .ok (some 2) exampleOutOfOrderState := by
  decide

/-- C6 as amended: on a state with a PENDING head whose successor carries a finalized
timestamp `s`, `finalize(ts)` with `ts ≤ s` returns normally; afterwards the head is the same
entry with `ts_ = ts`, its successor is unchanged, and so the head's timestamp is not above
its successor's. -/
theorem C6_finalize_publishes_unordered (c : Sentinels) (b : Bundle) (a n : Nat)
    (e s : BundleEntry) (ts : timestamp_t)
    (ha : b.head_ = some a) (he : b.mem[a]? = some e)
    (hp : e.ts_ = c.BUNDLE_PENDING_TIMESTAMP)
    (hn : e.next_ = some n) (hs : b.mem[n]? = some s)
    (hfin : s.ts_ ≠ c.BUNDLE_PENDING_TIMESTAMP) (hle : ts ≤ s.ts_) :
    ∃ b1 e1, Bundle.finalize c b ts = .ok () b1 ∧ b1.head_ = some a ∧
      b1.mem[a]? = some e1 ∧ e1.ts_ = ts ∧ e1.next_ = some n ∧
      b1.mem[n]? = some s ∧ e1.ts_ ≤ s.ts_ := by
  have hne : ¬ (a = n) := by
    intro heq
    rw [heq, hs] at he
    cases he
    exact hfin hp
  have hlt : a < b.mem.length := (List.getElem?_eq_some.mp he).1
  refine ⟨{ b with mem := b.mem.set a { e with ts_ := ts } }, { e with ts_ := ts }, ?_, ha, ?_,
    rfl, hn, ?_, hle⟩
  · simp [Bundle.finalize, ha, he, hp]
  · simp [List.getElem?_set, hlt]
  · simp only [List.getElem?_set, hne, if_false]
    exact hs

/-- C6 as amended, on the state reached by `init; prepare(A); finalize(10); prepare(B)`
with `finalize(5)`. -/
theorem C6_finalize_publishes_unordered_witness :
    ∃ b1 e1, Bundle.finalize exampleSentinels examplePendingState 5 = .ok () b1 ∧
      b1.head_ = some 2 ∧ b1.mem[2]? = some e1 ∧ e1.ts_ = 5 ∧ e1.next_ = some 1 ∧
      b1.mem[1]? = some { ts_ := 10, ptr_ := some 1, next_ := some 0, deleted_ts_ := 0 } ∧
      e1.ts_ ≤ (10 : timestamp_t) :=
  C6_finalize_publishes_unordered exampleSentinels examplePendingState 2 1
    { ts_ := 1000, ptr_ := some 2, next_ := some 1, deleted_ts_ := 0 }
    { ts_ := 10, ptr_ := some 1, next_ := some 0, deleted_ts_ := 0 } 5
    (by decide) (by decide) (by decide) (by decide) (by decide) (by decide) (by decide)

/-- C7: an entry whose `ts_` is not PENDING keeps its `ts_` and its `ptr_` through every
sequence of `prepare`, `finalize` and `getPtrByTimestamp` calls that return. -/
theorem C7_finalized_entries_immutable (c : Sentinels) (fuel : Nat) (b b1 : Bundle)
    (calls : List Call) (a : Nat) (e : BundleEntry)
    (he : b.mem[a]? = some e) (hfin : e.ts_ ≠ c.BUNDLE_PENDING_TIMESTAMP)
    (hrun : Bundle.run c fuel b calls = .ok () b1) :
    ∃ e1, b1.mem[a]? = some e1 ∧ e1.ts_ = e.ts_ ∧ e1.ptr_ = e.ptr_ :=
  ⟨e, Bundle.run_keeps_final c fuel calls b b1 () hrun a e he hfin, rfl, rfl⟩

/-- C7 on the entry finalized at 10 of the state reached by `init; prepare(A);
finalize(10); prepare(B)`, through `finalize(20); getPtrByTimestamp(15); prepare(C);
finalize(30)`. -/
theorem C7_finalized_entries_immutable_witness :
    Bundle.run exampleSentinels 4 examplePendingState
        [Call.finalize 20, Call.getPtrByTimestamp 15, Call.prepare (some 3), Call.finalize 30]
        = .ok () exampleThreeCommits ∧
      ∃ e1, exampleThreeCommits.mem[1]? = some e1 ∧ e1.ts_ = 10 ∧ e1.ptr_ = some 1 :=
  ⟨by decide, C7_finalized_entries_immutable exampleSentinels 4 examplePendingState
    exampleThreeCommits
    [Call.finalize 20, Call.getPtrByTimestamp 15, Call.prepare (some 3), Call.finalize 30] 1
    { ts_ := 10, ptr_ := some 1, next_ := some 0, deleted_ts_ := 0 }
    (by decide) (by decide) (by decide)⟩

/-- C8, refuted on a concrete entry: after `mark(5)` the marker is the non-NULL value 5,
yet a later `mark(7)` makes `marked()` return 7, not 5, and a later `mark(NULL)` makes it
return NULL again. -/
theorem C8_counterexample :
    ((BundleEntry.ctor exampleSentinels 10 (some 1) none).mark 5).marked = 5 ∧
    (5 : timestamp_t) ≠ exampleSentinels.BUNDLE_NULL_TIMESTAMP ∧
    (((BundleEntry.ctor exampleSentinels 10 (some 1) none).mark 5).mark 7).marked ≠ 5 ∧
    (((BundleEntry.ctor exampleSentinels 10 (some 1) none).mark 5).mark
      exampleSentinels.BUNDLE_NULL_TIMESTAMP).marked = exampleSentinels.BUNDLE_NULL_TIMESTAMP := by
  decide

/-- C8 as amended: a freshly constructed entry is unmarked (`marked()` returns the NULL
timestamp); `mark(ts)` stores `ts` whatever the marker held and writes no other field, so
after `mark(ts1); mark(ts2)` the value returned by `marked()` is `ts2`. -/
theorem C8_mark_overwrites (c : Sentinels) (ts : timestamp_t) (ptr : NodePtr)
    (next : Option Addr) (e : BundleEntry) (ts1 ts2 : timestamp_t) :
    (BundleEntry.ctor c ts ptr next).marked = c.BUNDLE_NULL_TIMESTAMP ∧
    (e.mark ts1).marked = ts1 ∧
    ((e.mark ts1).mark ts2).marked = ts2 ∧
    (e.mark ts1).ts_ = e.ts_ ∧ (e.mark ts1).ptr_ = e.ptr_ ∧ (e.mark ts1).next_ = e.next_ :=
  ⟨rfl, rfl, rfl, rfl, rfl, rfl⟩

/-- C9: on two states that are identical except for the `deleted_ts_` fields of their
entries, `getPtrByTimestamp(ts)` has the same outcome for every `ts` (and every loop
bound): it returns on one exactly when it returns on the other, with the same pointer and
the same entry selected, and otherwise stops in the same way. -/
theorem C9_retirement_invisible_to_reads (c : Sentinels) (fuel : Nat) (b1 b2 : Bundle)
    (ts : timestamp_t) (h : b1.eraseDeleted = b2.eraseDeleted) :
    (Bundle.getPtrByTimestamp c fuel b1 ts).returned
      = (Bundle.getPtrByTimestamp c fuel b2 ts).returned ∧
    (Bundle.getPtrByTimestamp_curr c fuel b1 ts).returned
      = (Bundle.getPtrByTimestamp_curr c fuel b2 ts).returned ∧
    (Bundle.getPtrByTimestamp c fuel b1 ts).mapPost Bundle.eraseDeleted
      = (Bundle.getPtrByTimestamp c fuel b2 ts).mapPost Bundle.eraseDeleted := by
  have hptr : (Bundle.getPtrByTimestamp c fuel b1 ts).mapPost Bundle.eraseDeleted
      = (Bundle.getPtrByTimestamp c fuel b2 ts).mapPost Bundle.eraseDeleted := by
    rw [← Bundle.getPtr_eraseDeleted, ← Bundle.getPtr_eraseDeleted, h]
  have hcurr : (Bundle.getPtrByTimestamp_curr c fuel b1 ts).mapPost Bundle.eraseDeleted
      = (Bundle.getPtrByTimestamp_curr c fuel b2 ts).mapPost Bundle.eraseDeleted := by
    rw [← Bundle.curr_eraseDeleted, ← Bundle.curr_eraseDeleted, h]
  refine ⟨?_, ?_, hptr⟩
  · rw [← Outcome.returned_mapPost Bundle.eraseDeleted, hptr, Outcome.returned_mapPost]
  · rw [← Outcome.returned_mapPost Bundle.eraseDeleted, hcurr, Outcome.returned_mapPost]

/-- C9 on the state with commits at 10, 20 and 30 and on the same state with every entry
marked as retired at 25: the read at 15 returns A on both. -/
theorem C9_retirement_invisible_to_reads_witness :
    (Bundle.getPtrByTimestamp exampleSentinels 5 exampleThreeCommits 15).returned = some (some 1) ∧
    (Bundle.getPtrByTimestamp exampleSentinels 5
      { exampleThreeCommits with
        mem := exampleThreeCommits.mem.map (fun e => e.mark 25) } 15).returned
      = some (some 1) := by
  have h := (C9_retirement_invisible_to_reads exampleSentinels 5 exampleThreeCommits
    { exampleThreeCommits with mem := exampleThreeCommits.mem.map (fun e => e.mark 25) } 15
    (by decide)).1
  have h1 : (Bundle.getPtrByTimestamp exampleSentinels 5 exampleThreeCommits 15).returned
      = some (some 1) := by decide
  exact ⟨h1, by rw [← h]; exact h1⟩

/-- C10: when `getPtrByTimestamp(ts)` returns, the whole state (`head_`, `tail_` and every
field of every entry) is the state before the call. -/
theorem C10_read_only (c : Sentinels) (fuel : Nat) (b b1 : Bundle) (ts : timestamp_t)
    (p : NodePtr) (h : Bundle.getPtrByTimestamp c fuel b ts = .ok p b1) : b1 = b :=
  Bundle.getPtr_ok_inv c fuel b b1 ts p h

/-- C10 on the read at 15 of the state with commits at 10, 20 and 30. -/
theorem C10_read_only_witness :
    Bundle.getPtrByTimestamp exampleSentinels 5 exampleThreeCommits 15
      = .ok (some 1) exampleThreeCommits ∧ exampleThreeCommits = exampleThreeCommits :=
  ⟨by decide, C10_read_only exampleSentinels 5 exampleThreeCommits exampleThreeCommits 15
    (some 1) (by decide)⟩

/-- C11 (effect of `prepare`): on a state whose head entry is not PENDING, `prepare(p)`
returns; the head is then a newly allocated entry with `ts_ = PENDING`, `ptr_ = p`, the
NULL timestamp as `deleted_ts_` and the previous head as `next_`; the tail and every entry
of the previous memory are unchanged, and the chain is the previous chain with that one
entry in front. -/
theorem C11_prepare_effect (c : Sentinels) (fuel : Nat) (b : Bundle) (ptr : NodePtr)
    (e : BundleEntry) (he : b.deref b.head_ = some e)
    (hfin : e.ts_ ≠ c.BUNDLE_PENDING_TIMESTAMP) (hfuel : 2 ≤ fuel) :
    ∃ b1, Bundle.prepare c fuel b ptr = .ok () b1 ∧
      b1.head_ = some b.mem.length ∧
      b.mem[b.mem.length]? = none ∧
      b1.mem[b.mem.length]? = some (BundleEntry.mk c.BUNDLE_PENDING_TIMESTAMP ptr b.head_
        c.BUNDLE_NULL_TIMESTAMP) ∧
      b1.mem.length = b.mem.length + 1 ∧
      b1.tail_ = b.tail_ ∧
      (∀ (a : Nat) (x : BundleEntry), b.mem[a]? = some x → b1.mem[a]? = some x) ∧
      (∀ (f : Nat) (l : List (Addr × BundleEntry)), b.chain f = some l →
        b1.chain (f + 1) = some ((b.mem.length, BundleEntry.mk c.BUNDLE_PENDING_TIMESTAMP ptr
          b.head_ c.BUNDLE_NULL_TIMESTAMP) :: l)) := by
  obtain ⟨g, rfl⟩ : ∃ g, fuel = g + 2 := ⟨fuel - 2, by omega⟩
  have hkeep : ∀ (a : Nat) (x : BundleEntry), b.mem[a]? = some x →
      (Bundle.committed c b ptr c.BUNDLE_PENDING_TIMESTAMP).mem[a]? = some x := by
    intro a x hx
    simp only [Bundle.committed]
    rw [List.getElem?_append_left (List.getElem?_eq_some.mp hx).1]
    exact hx
  have hnew : (Bundle.committed c b ptr c.BUNDLE_PENDING_TIMESTAMP).mem[b.mem.length]?
      = some (BundleEntry.mk c.BUNDLE_PENDING_TIMESTAMP ptr b.head_
        c.BUNDLE_NULL_TIMESTAMP) := by
    simp only [Bundle.committed]
    exact List.getElem?_concat_length _ _
  refine ⟨Bundle.committed c b ptr c.BUNDLE_PENDING_TIMESTAMP,
    Bundle.prepare_eq c b ptr e g he hfin, rfl, List.getElem?_eq_none (Nat.le_refl _), hnew,
    by simp [Bundle.committed], rfl, hkeep, ?_⟩
  intro f l hl
  have hlast := Bundle.chainFrom_getLast? b f b.head_ l hl
  have hmem := Bundle.chainFrom_mem b f b.head_ l hl
  have hne : ¬ (some b.mem.length = b.tail_) := by
    intro ht
    rw [← ht] at hlast
    cases hg : l.getLast? with
    | none => rw [hg] at hlast; simp at hlast
    | some x =>
      rw [hg] at hlast
      have hx1 : x.1 = b.mem.length := by simpa using hlast
      have hx := hmem x (List.mem_of_getLast?_eq_some hg)
      have hlt : x.1 < b.mem.length := (List.getElem?_eq_some.mp hx).1
      exact absurd hx1 (Nat.ne_of_lt hlt)
  have hext := Bundle.chainFrom_ext b (Bundle.committed c b ptr c.BUNDLE_PENDING_TIMESTAMP) rfl
    hkeep f b.head_ l hl
  unfold Bundle.chain Bundle.chainFrom
  have hhead : (Bundle.committed c b ptr c.BUNDLE_PENDING_TIMESTAMP).head_
      = some b.mem.length := rfl
  have htail : (Bundle.committed c b ptr c.BUNDLE_PENDING_TIMESTAMP).tail_ = b.tail_ := rfl
  rw [hhead]
  simp only [hnew, htail, hne, if_false, hext, Option.map_some']

/-- C11 on the state with commits at 10, 20 and 30: `prepare(D)` returns and links a new
PENDING entry at the fresh address 4, in front of the previous head at address 3. -/
theorem C11_prepare_effect_witness :
    ∃ b1, Bundle.prepare exampleSentinels 2 exampleThreeCommits (some 4) = .ok () b1 ∧
      b1.head_ = some 4 ∧
      b1.mem[4]? = some (BundleEntry.mk 1000 (some 4) (some 3) 0) ∧
      b1.tail_ = some 0 ∧
      b1.mem[3]? = some (BundleEntry.mk 30 (some 3) (some 2) 0) := by
  obtain ⟨b1, h1, h2, _, h4, _, h6, h7, _⟩ := C11_prepare_effect exampleSentinels 2
    exampleThreeCommits (some 4) (BundleEntry.mk 30 (some 3) (some 2) 0) (by decide)
    (by decide) (by decide)
  exact ⟨b1, h1, h2, h4, h6, h7 3 _ (by decide)⟩

/-- C12 (effect and frame of `finalize`): on a state whose head entry is PENDING,
`finalize(ts)` returns; afterwards the head entry's `ts_` is `ts` and nothing else has
changed: `head_` and `tail_` are the same, the head entry keeps its `ptr_`, `next_` and
`deleted_ts_`, and every other entry of the memory is the same. -/
theorem C12_finalize_effect (c : Sentinels) (b : Bundle) (a : Nat) (e : BundleEntry)
    (ts : timestamp_t) (ha : b.head_ = some a) (he : b.mem[a]? = some e)
    (hp : e.ts_ = c.BUNDLE_PENDING_TIMESTAMP) :
    ∃ b1, Bundle.finalize c b ts = .ok () b1 ∧
      b1.head_ = b.head_ ∧ b1.tail_ = b.tail_ ∧ b1.mem.length = b.mem.length ∧
      b1.mem[a]? = some (BundleEntry.mk ts e.ptr_ e.next_ e.deleted_ts_) ∧
      (∀ a1 : Nat, a1 ≠ a → b1.mem[a1]? = b.mem[a1]?) := by
  have hlt : a < b.mem.length := (List.getElem?_eq_some.mp he).1
  refine ⟨{ b with mem := b.mem.set a { e with ts_ := ts } }, ?_, rfl, rfl, ?_, ?_, ?_⟩
  · simp [Bundle.finalize, ha, he, hp]
  · simp
  · simp [List.getElem?_set, hlt]
  · intro a1 hne
    have hne1 : ¬ (a = a1) := fun h => hne h.symm
    simp only [List.getElem?_set, hne1, if_false]

/-- C12 on the state reached by `init; prepare(A); finalize(10); prepare(B)` with
`finalize(20)`. -/
theorem C12_finalize_effect_witness :
    ∃ b1, Bundle.finalize exampleSentinels examplePendingState 20 = .ok () b1 ∧
      b1.head_ = some 2 ∧ b1.tail_ = some 0 ∧
      b1.mem[2]? = some (BundleEntry.mk 20 (some 2) (some 1) 0) ∧
      b1.mem[1]? = some (BundleEntry.mk 10 (some 1) (some 0) 0) := by
  obtain ⟨b1, h1, h2, h3, _, h5, h6⟩ := C12_finalize_effect exampleSentinels
    examplePendingState 2 (BundleEntry.mk 1000 (some 2) (some 1) 0) 20 (by decide)
    (by decide) (by decide)
  exact ⟨b1, h1, h2, h3, h5, by rw [h6 1 (by decide)]; decide⟩

/-- C13 (the tail sentinel is fixed and reachable): after `init()` head and tail are the
same newly allocated entry, with `ts_ = NULL`, null `ptr_` and null `next_`, and the chain
is that entry alone; in every state reached afterwards by calls of `prepare`, `finalize`
and `getPtrByTimestamp` that returned, `tail_` is the same address, the entry there has
the same field values, and following `next_` from any entry of the chain reaches the
tail in finitely many steps. -/
theorem C13_tail_fixed_and_reachable (c : Sentinels) (fuel : Nat) (b0 b : Bundle)
    (calls : List Call)
    (hc : c.BUNDLE_NULL_TIMESTAMP ≠ c.BUNDLE_PENDING_TIMESTAMP)
    (hrun : Bundle.run c fuel (Bundle.init c b0) calls = .ok () b) :
    ((Bundle.init c b0).head_ = (Bundle.init c b0).tail_ ∧
      (Bundle.init c b0).tail_ = some b0.mem.length ∧
      (Bundle.init c b0).chain 1
        = some [(b0.mem.length, BundleEntry.mk c.BUNDLE_NULL_TIMESTAMP none none
            c.BUNDLE_NULL_TIMESTAMP)]) ∧
    (b.tail_ = (Bundle.init c b0).tail_ ∧
      b.mem[b0.mem.length]? = some (BundleEntry.mk c.BUNDLE_NULL_TIMESTAMP none none
        c.BUNDLE_NULL_TIMESTAMP) ∧
      ∃ l, b.chain b.mem.length = some l ∧
        ∀ x ∈ l, ∃ l1, b.chainFrom b.mem.length (some x.1) = some l1 ∧
          l1.getLast?.map Prod.fst = b.tail_) := by
  have htail0 : (Bundle.init c b0).mem[b0.mem.length]?
      = some (BundleEntry.mk c.BUNDLE_NULL_TIMESTAMP none none c.BUNDLE_NULL_TIMESTAMP) := by
    simp only [Bundle.init, BundleEntry.ctor]
    exact List.getElem?_concat_length _ _
  obtain ⟨n, hs⟩ := Bundle.stacked_run c fuel b0.mem.length calls _ b 0 ()
    (Bundle.stacked_init c b0) hrun
  refine ⟨⟨rfl, rfl, ?_⟩, hs.tail_eq, ?_, ?_⟩
  · simp [Bundle.chain, Bundle.chainFrom, Bundle.init, BundleEntry.ctor]
  · exact Bundle.run_keeps_final c fuel calls _ b () hrun b0.mem.length _ htail0 hc
  · obtain ⟨e, rest, hchain, _, hrest⟩ := Bundle.chainFrom_stacked c b b0.mem.length n hs n
      b.mem.length (le_refl _) (by rw [hs.len_eq]; omega)
    refine ⟨(b0.mem.length + n, e) :: rest, ?_, ?_⟩
    · unfold Bundle.chain
      rw [hs.head_eq]
      exact hchain
    · intro x hx
      have hrange : b0.mem.length ≤ x.1 ∧ x.1 ≤ b0.mem.length + n := by
        rcases List.mem_cons.mp hx with h | h
        · subst h
          exact ⟨Nat.le_add_right _ _, Nat.le_refl _⟩
        · obtain ⟨h1, h2, _⟩ := hrest x h
          exact ⟨h2, Nat.le_of_lt h1⟩
      obtain ⟨k, hk, hkn⟩ : ∃ k : Nat, b0.mem.length + k = x.1 ∧ k ≤ n := by
        obtain ⟨h1, h2⟩ := hrange
        obtain ⟨k, hk⟩ := Nat.exists_eq_add_of_le h1
        exact ⟨k, hk.symm, by
          have h3 : b0.mem.length + k ≤ b0.mem.length + n := by rw [← hk]; exact h2
          exact Nat.le_of_add_le_add_left h3⟩
      obtain ⟨e1, rest1, hchain1, _, _⟩ := Bundle.chainFrom_stacked c b b0.mem.length n hs k
        b.mem.length hkn (by rw [hs.len_eq]; omega)
      rw [← hk]
      exact ⟨_, hchain1, Bundle.chainFrom_getLast? b _ _ _ hchain1⟩

/-- C13 on the run `init; prepare(A); finalize(10); prepare(B)`: the tail is still the
entry at address 0 with its initial field values. -/
theorem C13_tail_fixed_and_reachable_witness :
    Bundle.run exampleSentinels 3 (Bundle.init exampleSentinels Bundle.fresh)
        [Call.prepare (some 1), Call.finalize 10, Call.prepare (some 2)]
      = .ok () examplePendingState ∧
    examplePendingState.tail_ = (Bundle.init exampleSentinels Bundle.fresh).tail_ ∧
    examplePendingState.mem[0]? = some (BundleEntry.mk 0 none none 0) ∧
    ∃ l, examplePendingState.chain examplePendingState.mem.length = some l ∧
      ∀ x ∈ l, ∃ l1, examplePendingState.chainFrom examplePendingState.mem.length (some x.1)
          = some l1 ∧ l1.getLast?.map Prod.fst = examplePendingState.tail_ :=
  ⟨by decide, (C13_tail_fixed_and_reachable exampleSentinels 3 Bundle.fresh
    examplePendingState [Call.prepare (some 1), Call.finalize 10, Call.prepare (some 2)]
    (by decide) (by decide)).2⟩

/-- C14 (`validate`): for an entry that has a successor, `validate()` returns normally
exactly when the entry's `ts_` is greater than or equal to its successor's `ts_`, and
terminates the process when it is smaller; in both cases no field of the memory has been
written. -/
theorem C14_validate_checks_order (mem : List BundleEntry) (a n : Nat) (e s : BundleEntry)
    (he : mem[a]? = some e) (hn : e.next_ = some n) (hs : mem[n]? = some s) :
    (BundleEntry.validate mem a = .ok () mem ↔ s.ts_ ≤ e.ts_) ∧
    (e.ts_ < s.ts_ → BundleEntry.validate mem a = .abort mem) ∧
    (∀ (u : Unit) (m1 : List BundleEntry), BundleEntry.validate mem a = .ok u m1 → m1 = mem) ∧
    (∀ m1 : List BundleEntry, BundleEntry.validate mem a = .abort m1 → m1 = mem) := by
  by_cases hlt : e.ts_ < s.ts_
  · have hv : BundleEntry.validate mem a = .abort mem := by
      simp [BundleEntry.validate, he, hn, hs, hlt]
    refine ⟨⟨?_, ?_⟩, fun _ => hv, ?_, ?_⟩
    · intro h; rw [hv] at h; cases h
    · intro h; exact absurd hlt (not_lt.mpr h)
    · intro u m1 h; rw [hv] at h; cases h
    · intro m1 h; rw [hv] at h; cases h; rfl
  · have hv : BundleEntry.validate mem a = .ok () mem := by
      simp [BundleEntry.validate, he, hn, hs, hlt]
    refine ⟨⟨fun _ => not_lt.mp hlt, fun _ => hv⟩, fun h => absurd h hlt, ?_, ?_⟩
    · intro u m1 h; rw [hv] at h; cases h; rfl
    · intro m1 h; rw [hv] at h; cases h

/-- C14 on the head of the state with commits at 10, 20 and 30 (30 above 20: returns) and
on the head of the state left by an out-of-order `finalize(5)` (5 below 10: exits). -/
theorem C14_validate_checks_order_witness :
    BundleEntry.validate exampleThreeCommits.mem 3 = .ok () exampleThreeCommits.mem ∧
    BundleEntry.validate exampleOutOfOrderState.mem 2 = .abort exampleOutOfOrderState.mem :=
  ⟨(C14_validate_checks_order exampleThreeCommits.mem 3 2
      (BundleEntry.mk 30 (some 3) (some 2) 0) (BundleEntry.mk 20 (some 2) (some 1) 0)
      (by decide) (by decide) (by decide)).1.mpr (by decide),
   (C14_validate_checks_order exampleOutOfOrderState.mem 2 1
      (BundleEntry.mk 5 (some 2) (some 1) 0) (BundleEntry.mk 10 (some 1) (some 0) 0)
      (by decide) (by decide) (by decide)).2.1 (by decide)⟩

/-- C15 (teardown): after `init()` and `k` completed `prepare`/`finalize` pairs, the
destructor's walk from the head terminates; it passes to `delete` exactly `k + 1`
addresses, which are the addresses of the chain from head to tail in that order, no
address twice, and they are exactly the entries allocated since `init` (the `k` entries and
the tail). -/
theorem C15_teardown_releases_chain_once (c : Sentinels) (b0 : Bundle)
    (pairs : List (NodePtr × timestamp_t)) (fuel : Nat)
    (hc : c.BUNDLE_NULL_TIMESTAMP ≠ c.BUNDLE_PENDING_TIMESTAMP)
    (hpend : ∀ pt ∈ pairs, pt.2 ≠ c.BUNDLE_PENDING_TIMESTAMP)
    (hfuel : pairs.length + 2 ≤ fuel) :
    ∃ b released l, Bundle.run c fuel (Bundle.init c b0) (commitCalls pairs) = .ok () b ∧
      b.destructor fuel = .ok () released ∧
      released.length = pairs.length + 1 ∧
      released.Nodup ∧
      b.chain fuel = some l ∧ released = l.map Prod.fst ∧
      (∀ a : Nat, a ∈ released ↔ b0.mem.length ≤ a ∧ a < b.mem.length) := by
  obtain ⟨b, hrun, hb⟩ := Bundle.run_commitCalls c fuel b0.mem.length hc (by omega) pairs
    (Bundle.init c b0) [] (Bundle.built_init c b0) (by simpa using hpend)
  rw [List.nil_append] at hb
  obtain ⟨n, hs⟩ := Bundle.stacked_run c fuel b0.mem.length (commitCalls pairs) _ b 0 ()
    (Bundle.stacked_init c b0) hrun
  have hn : n = pairs.length := by
    have h1 := hs.len_eq
    have h2 := hb.len_eq
    omega
  subst hn
  have hdestr : b.destructor fuel = .ok () (addrsDown b0.mem.length pairs.length) := by
    unfold Bundle.destructor
    rw [hs.head_eq, Bundle.destructorLoop_stacked c b b0.mem.length pairs.length hs
      pairs.length fuel [] (le_refl _) (by omega) (by simp)]
    rfl
  have hchain : b.chain fuel = some (builtChain c b0.mem.length pairs pairs.length) := by
    unfold Bundle.chain
    rw [hb.head_eq]
    exact Bundle.chainFrom_built c b b0.mem.length pairs hb pairs.length fuel (le_refl _)
      (by omega)
  refine ⟨b, _, _, hrun, hdestr, addrsDown_length _ _, addrsDown_nodup _ _, hchain,
    (builtChain_addrs c b0.mem.length pairs pairs.length (le_refl _)).symm, ?_⟩
  intro a
  rw [mem_addrsDown, hb.len_eq]
  omega

/-- C15 on the scenario `init; prepare(A); finalize(10); prepare(B); finalize(20)`: the
destructor releases three entries, the two committed ones and the tail. -/
theorem C15_teardown_releases_chain_once_witness :
    ∃ b released l, Bundle.run exampleSentinels 4 (Bundle.init exampleSentinels Bundle.fresh)
        (commitCalls [(some 1, 10), (some 2, 20)]) = .ok () b ∧
      b.destructor 4 = .ok () released ∧
      released.length = 3 ∧
      released.Nodup ∧
      b.chain 4 = some l ∧ released = l.map Prod.fst ∧
      (∀ a : Nat, a ∈ released ↔ Bundle.fresh.mem.length ≤ a ∧ a < b.mem.length) :=
  C15_teardown_releases_chain_once exampleSentinels Bundle.fresh [(some 1, 10), (some 2, 20)] 4
    (by decide) (by simp [exampleSentinels]) (by decide)

/-- C17 (read algorithm on an arbitrary chain): on a state whose chain from head to tail is
`l` (no order assumed between the timestamps), whose head is not PENDING and whose entries
before the tail have `ts_` different from NULL, `getPtrByTimestamp(q)` returns the `ptr_` of
the entry designated by `firstNotNewer q l`: the first entry from the head that is not the
tail and has `ts_ ≤ q`, and the tail (whatever its own `ts_`) when there is none. -/
theorem C17_read_first_not_newer (c : Sentinels) (b : Bundle) (q : timestamp_t) (f : Nat)
    (l : List (Addr × BundleEntry)) (fuel : Nat)
    (hl : b.chain f = some l)
    (hhead : ∀ x ∈ l.head?, x.2.ts_ ≠ c.BUNDLE_PENDING_TIMESTAMP)
    (hnull : ∀ x ∈ l.dropLast, x.2.ts_ ≠ c.BUNDLE_NULL_TIMESTAMP)
    (hfuel : l.length ≤ fuel) :
    ∃ x, firstNotNewer q l = some x ∧
      Bundle.getPtrByTimestamp_curr c fuel b q = .ok (some x.1) b ∧
      Bundle.getPtrByTimestamp c fuel b q = .ok x.2.ptr_ b ∧
      ((∃ y ∈ l.dropLast, y.2.ts_ ≤ q) →
        x ∈ l.dropLast ∧ x.2.ts_ ≤ q ∧ l.dropLast.find? (fun y => decide (y.2.ts_ ≤ q)) = some x) ∧
      ((∀ y ∈ l.dropLast, ¬ y.2.ts_ ≤ q) → l.getLast? = some x ∧ some x.1 = b.tail_) := by
  obtain ⟨x, hx, _, _, hcurr, hptr⟩ := Bundle.read_chain c b q f l fuel hl hhead hnull hfuel
  refine ⟨x, hx, hcurr, hptr, ?_, ?_⟩
  · intro hex
    obtain ⟨y, hy, hyq⟩ := hex
    cases hfind : l.dropLast.find? (fun y => decide (y.2.ts_ ≤ q)) with
    | none =>
      have := List.find?_eq_none.mp hfind y hy
      simp [hyq] at this
    | some z =>
      have hz : firstNotNewer q l = some z := by simp [firstNotNewer, hfind]
      rw [hx] at hz
      cases hz
      exact ⟨List.mem_of_find?_eq_some hfind, by simpa using List.find?_some hfind, rfl⟩
  · intro hall
    have hfind : l.dropLast.find? (fun y => decide (y.2.ts_ ≤ q)) = none := by
      rw [List.find?_eq_none]
      intro y hy
      simpa using hall y hy
    have hlast : l.getLast? = some x := by
      have h := hx
      simp only [firstNotNewer, hfind] at h
      exact h
    refine ⟨hlast, ?_⟩
    have h := Bundle.chainFrom_getLast? b f b.head_ l hl
    rw [hlast] at h
    exact h

/-- C17 on a chain that is not ordered (head at 5 above an entry at 10): the read at 7
returns B, the first entry from the head with `ts_ ≤ 7`, and the read at 3 returns the
tail's null pointer. -/
theorem C17_read_first_not_newer_witness :
    (∃ x, firstNotNewer 7 [(2, BundleEntry.mk 5 (some 2) (some 1) 0),
        (1, BundleEntry.mk 10 (some 1) (some 0) 0), (0, BundleEntry.mk 0 none none 0)] = some x ∧
      Bundle.getPtrByTimestamp exampleSentinels 3 exampleOutOfOrderState 7
        = .ok x.2.ptr_ exampleOutOfOrderState) ∧
    Bundle.getPtrByTimestamp exampleSentinels 3 exampleOutOfOrderState 7
      = .ok (some 2) exampleOutOfOrderState ∧
    Bundle.getPtrByTimestamp exampleSentinels 3 exampleOutOfOrderState 3
      = .ok none exampleOutOfOrderState := by
  obtain ⟨x, h1, _, h3, _, _⟩ := C17_read_first_not_newer exampleSentinels
    exampleOutOfOrderState 7 3 [(2, BundleEntry.mk 5 (some 2) (some 1) 0),
      (1, BundleEntry.mk 10 (some 1) (some 0) 0), (0, BundleEntry.mk 0 none none 0)] 3
    (by decide) (by decide) (by decide) (by decide)
  exact ⟨⟨x, h1, h3⟩, by decide, by decide⟩

/-- C18 (a reader never returns an unpublished version): in every state reached from
`init()` by calls of `prepare`, `finalize` (with real timestamps) and `getPtrByTimestamp`
that returned, and for every query `q`: if the head is PENDING the read reaches every loop
bound without returning; if the head is not PENDING the read returns, and the entry whose
`ptr_` it returns is not PENDING; so the read returns if and only if the head is not
PENDING. -/
theorem C18_reader_waits_for_publication (c : Sentinels) (fuel0 : Nat) (b0 b : Bundle)
    (calls : List Call) (q : timestamp_t)
    (hc : c.BUNDLE_NULL_TIMESTAMP ≠ c.BUNDLE_PENDING_TIMESTAMP)
    (hreal : RealCalls c calls)
    (hrun : Bundle.run c fuel0 (Bundle.init c b0) calls = .ok () b) :
    ∃ hd, b.deref b.head_ = some hd ∧
      (hd.ts_ = c.BUNDLE_PENDING_TIMESTAMP →
        ∀ fuel, Bundle.getPtrByTimestamp c fuel b q = .timeout) ∧
      (hd.ts_ ≠ c.BUNDLE_PENDING_TIMESTAMP →
        ∀ fuel, b.mem.length ≤ fuel →
          ∃ a e, Bundle.getPtrByTimestamp_curr c fuel b q = .ok (some a) b ∧
            b.mem[a]? = some e ∧
            Bundle.getPtrByTimestamp c fuel b q = .ok e.ptr_ b ∧
            e.ts_ ≠ c.BUNDLE_PENDING_TIMESTAMP) ∧
      ((∃ fuel p b1, Bundle.getPtrByTimestamp c fuel b q = .ok p b1) ↔
        hd.ts_ ≠ c.BUNDLE_PENDING_TIMESTAMP) := by
  obtain ⟨n, hs, hn⟩ := Bundle.nonull_run c fuel0 b0.mem.length hc calls _ b 0 () hreal
    (Bundle.stacked_init c b0) (fun i hi => absurd hi (Nat.not_lt_zero i)) hrun
  obtain ⟨hd, rest, hchain, hhd, hrest⟩ := Bundle.chainFrom_stacked c b b0.mem.length n hs n
    b.mem.length (le_refl _) (by rw [hs.len_eq]; omega)
  have hderef : b.deref b.head_ = some hd := by rw [hs.head_eq]; exact hhd
  have hchain1 : b.chain b.mem.length = some ((b0.mem.length + n, hd) :: rest) := by
    unfold Bundle.chain
    rw [hs.head_eq]
    exact hchain
  have hlen : ((b0.mem.length + n, hd) :: rest).length ≤ b.mem.length :=
    Bundle.chainFrom_length_le b _ _ _ hchain
  have hpending : hd.ts_ = c.BUNDLE_PENDING_TIMESTAMP →
      ∀ fuel, Bundle.getPtrByTimestamp c fuel b q = .timeout :=
    fun hp fuel => Bundle.getPtr_of_pending c b q hd hderef hp fuel
  have hfinal : hd.ts_ ≠ c.BUNDLE_PENDING_TIMESTAMP →
      ∀ fuel, b.mem.length ≤ fuel →
        ∃ a e, Bundle.getPtrByTimestamp_curr c fuel b q = .ok (some a) b ∧
          b.mem[a]? = some e ∧
          Bundle.getPtrByTimestamp c fuel b q = .ok e.ptr_ b ∧
          e.ts_ ≠ c.BUNDLE_PENDING_TIMESTAMP := by
    intro hfin fuel hfuel
    have hnull : ∀ x ∈ ((b0.mem.length + n, hd) :: rest).dropLast,
        x.2.ts_ ≠ c.BUNDLE_NULL_TIMESTAMP := by
      intro x hx
      have hxt := Bundle.chainFrom_dropLast_ne_tail b _ _ _ hchain x hx
      have hxl : x ∈ (b0.mem.length + n, hd) :: rest := List.mem_of_mem_dropLast hx
      have hxm := Bundle.chainFrom_mem b _ _ _ hchain x hxl
      have hrange : b0.mem.length ≤ x.1 ∧ x.1 ≤ b0.mem.length + n := by
        rcases List.mem_cons.mp hxl with h | h
        · subst h
          exact ⟨Nat.le_add_right _ _, Nat.le_refl _⟩
        · obtain ⟨h1, h2, _⟩ := hrest x h
          exact ⟨h2, Nat.le_of_lt h1⟩
      obtain ⟨i, hi, hin⟩ := exists_offset b0.mem.length n x.1 hrange.1 hrange.2
      have hi0 : i ≠ 0 := by
        intro h0
        subst h0
        apply hxt
        rw [hs.tail_eq, ← hi]
        rfl
      obtain ⟨j, rfl⟩ : ∃ j, i = j + 1 := ⟨i - 1, by omega⟩
      obtain ⟨e1, he1, hne1⟩ := hn j (by omega)
      have hidx : b0.mem.length + j + 1 = b0.mem.length + (j + 1) := by omega
      rw [← hi, ← hidx, he1] at hxm
      cases hxm
      exact hne1
    obtain ⟨x, _, hxmem, hxm, hcurr, hptr⟩ := Bundle.read_chain c b q b.mem.length _ fuel hchain1
      (by intro y hy; simp at hy; subst hy; exact hfin) hnull (le_trans hlen hfuel)
    refine ⟨x.1, x.2, hcurr, hxm, hptr, ?_⟩
    rcases List.mem_cons.mp hxmem with h | h
    · subst h
      exact hfin
    · obtain ⟨h1, h2, h3⟩ := hrest x h
      obtain ⟨i, hi, _⟩ := exists_offset b0.mem.length n x.1 h2 (Nat.le_of_lt h1)
      have hin : i < n := by
        have h4 : b0.mem.length + i < b0.mem.length + n := by rw [hi]; exact h1
        omega
      obtain ⟨e1, he1, hne1⟩ := hs.final i hin
      rw [← hi, he1] at h3
      cases h3
      exact hne1
  refine ⟨hd, hderef, hpending, hfinal, ?_⟩
  constructor
  · rintro ⟨fuel, p, b1, hret⟩ hp
    rw [hpending hp fuel] at hret
    cases hret
  · intro hfin
    obtain ⟨a, e, _, _, hptr, _⟩ := hfinal hfin b.mem.length (le_refl _)
    exact ⟨_, _, _, hptr⟩

/-- C18 on the run `init; prepare(A); finalize(10); prepare(B)`, which leaves a PENDING
head: the read at 5, below every finalized timestamp, reaches every loop bound. -/
theorem C18_reader_waits_for_publication_witness :
    Bundle.run exampleSentinels 3 (Bundle.init exampleSentinels Bundle.fresh)
        [Call.prepare (some 1), Call.finalize 10, Call.prepare (some 2)]
      = .ok () examplePendingState ∧
    ∀ fuel, Bundle.getPtrByTimestamp exampleSentinels fuel examplePendingState 5 = .timeout := by
  refine ⟨by decide, ?_⟩
  obtain ⟨hd, h1, h2, _, _⟩ := C18_reader_waits_for_publication exampleSentinels 3
    Bundle.fresh examplePendingState
    [Call.prepare (some 1), Call.finalize 10, Call.prepare (some 2)] 5 (by decide)
    (by
      intro ts hts
      simp only [List.mem_cons, List.mem_singleton, Call.finalize.injEq, List.not_mem_nil,
        or_false, false_or, reduceCtorEq] at hts
      subst hts
      decide)
    (by decide)
  have h3 : examplePendingState.deref examplePendingState.head_
      = some (BundleEntry.mk 1000 (some 2) (some 1) 0) := by decide
  rw [h3] at h1
  cases h1
  exact h2 rfl

/-- C19 (the traversal assertion holds on a properly built bundle): after `init()` and
completed `prepare`/`finalize` pairs with strictly increasing real timestamps, for every
query `q` (below the NULL sentinel's value included) `getPtrByTimestamp(q)` returns: it
does not stop at the assertion `curr->ts_ != BUNDLE_NULL_TIMESTAMP`, it does not read
through a null `next_`, and it does not reach the loop bound. -/
theorem C19_traversal_assertion_holds (c : Sentinels) (b0 : Bundle)
    (pairs : List (NodePtr × timestamp_t)) (fuel : Nat)
    (hc : c.BUNDLE_NULL_TIMESTAMP ≠ c.BUNDLE_PENDING_TIMESTAMP)
    (hreal : RealTimestamps c pairs) (hinc : StrictlyIncreasing pairs)
    (hfuel : pairs.length + 2 ≤ fuel) :
    ∃ b, Bundle.run c fuel (Bundle.init c b0) (commitCalls pairs) = .ok () b ∧
      ∀ q : timestamp_t,
        (∃ p, Bundle.getPtrByTimestamp c fuel b q = .ok p b) ∧
        (∀ s, Bundle.getPtrByTimestamp c fuel b q ≠ .abort s) ∧
        Bundle.getPtrByTimestamp c fuel b q ≠ .fault ∧
        Bundle.getPtrByTimestamp c fuel b q ≠ .timeout := by
  obtain ⟨b, hrun, hb⟩ := Bundle.built_run c b0 pairs fuel hc hreal (by omega)
  refine ⟨b, hrun, ?_⟩
  intro q
  obtain ⟨m, _, _, ⟨p, hp⟩, _, _⟩ := Bundle.select_built c b b0.mem.length pairs hb hc hreal
    hinc q fuel (by omega)
  refine ⟨⟨p, hp⟩, ?_, ?_, ?_⟩
  · intro s h; rw [hp] at h; cases h
  · intro h; rw [hp] at h; cases h
  · intro h; rw [hp] at h; cases h

/-- C19 on the scenario `init; prepare(A); finalize(10); prepare(B); finalize(20)` with the
query -5, below the NULL timestamp 0 of the example sentinels. -/
theorem C19_traversal_assertion_holds_witness :
    ∃ b, Bundle.run exampleSentinels 4 (Bundle.init exampleSentinels Bundle.fresh)
        (commitCalls [(some 1, 10), (some 2, 20)]) = .ok () b ∧
      ∃ p, Bundle.getPtrByTimestamp exampleSentinels 4 b (-5) = .ok p b := by
  obtain ⟨b, h1, h2⟩ := C19_traversal_assertion_holds exampleSentinels Bundle.fresh
    [(some 1, 10), (some 2, 20)] 4 (by decide) (by simp [RealTimestamps, exampleSentinels])
    (by simp [StrictlyIncreasing]) (by decide)
  exact ⟨b, h1, (h2 (-5)).1⟩

/-- C20 (reads are monotone in the query): after `init()` and completed
`prepare`/`finalize` pairs with strictly increasing real timestamps, for `q1 ≤ q2` the
reads at `q1` and `q2` both return, and the entry selected for `q2` is the one selected for
`q1` or a newer one: it sits at the same or a higher address, that is at the same or an
earlier position of the chain counted from the head. -/
theorem C20_reads_monotone (c : Sentinels) (b0 : Bundle)
    (pairs : List (NodePtr × timestamp_t)) (fuel : Nat)
    (hc : c.BUNDLE_NULL_TIMESTAMP ≠ c.BUNDLE_PENDING_TIMESTAMP)
    (hreal : RealTimestamps c pairs) (hinc : StrictlyIncreasing pairs)
    (hfuel : pairs.length + 2 ≤ fuel)
    (q1 q2 : timestamp_t) (hq : q1 ≤ q2) :
    ∃ (b : Bundle) (l : List (Addr × BundleEntry)) (a1 a2 i1 i2 : Nat),
      Bundle.run c fuel (Bundle.init c b0) (commitCalls pairs) = .ok () b ∧
      b.chain fuel = some l ∧
      Bundle.getPtrByTimestamp_curr c fuel b q1 = .ok (some a1) b ∧
      Bundle.getPtrByTimestamp_curr c fuel b q2 = .ok (some a2) b ∧
      l[i1]?.map Prod.fst = some a1 ∧ l[i2]?.map Prod.fst = some a2 ∧
      i2 ≤ i1 ∧ a1 ≤ a2 := by
  obtain ⟨b, hrun, hb⟩ := Bundle.built_run c b0 pairs fuel hc hreal (by omega)
  obtain ⟨m1, hm1, hcurr1, _, hstop1, _⟩ := Bundle.select_built c b b0.mem.length pairs hb hc
    hreal hinc q1 fuel (by omega)
  obtain ⟨m2, hm2, hcurr2, _, _, hnext2⟩ := Bundle.select_built c b b0.mem.length pairs hb hc
    hreal hinc q2 fuel (by omega)
  have hchain : b.chain fuel = some (builtChain c b0.mem.length pairs pairs.length) := by
    unfold Bundle.chain
    rw [hb.head_eq]
    exact Bundle.chainFrom_built c b b0.mem.length pairs hb pairs.length fuel (le_refl _)
      (by omega)
  have hle : m1 ≤ m2 := by
    by_contra hlt
    have hlt1 : m2 < m1 := Nat.lt_of_not_le hlt
    rcases hstop1 with h0 | ⟨pt1, hpt1, hle1⟩
    · omega
    · have hm2lt : m2 < pairs.length := by omega
      have hpt2 : pairs[m2]? = some pairs[m2] := List.getElem?_eq_getElem hm2lt
      have hq2 := hnext2 _ hpt2
      rcases Nat.eq_or_lt_of_le (Nat.le_sub_one_of_lt hlt1) with heq | hlt2
      · rw [← heq, hpt2] at hpt1
        cases hpt1
        exact absurd (lt_of_lt_of_le hq2 hle1) (not_lt.mpr hq)
      · have hinc12 := increasing_getElem? pairs hinc m2 (m1 - 1) _ _ hpt2 hpt1 hlt2
        exact lt_irrefl q2 (lt_of_lt_of_le (lt_trans hq2 hinc12) (le_trans hle1 hq))
  have haddr : ∀ m, m ≤ pairs.length →
      (builtChain c b0.mem.length pairs pairs.length)[pairs.length - m]?.map Prod.fst
        = some (b0.mem.length + m) := by
    intro m hm
    rw [← List.getElem?_map, builtChain_addrs c b0.mem.length pairs pairs.length (le_refl _),
      addrsDown_getElem? _ _ _ (Nat.sub_le _ _)]
    congr 2
    omega
  exact ⟨b, _, b0.mem.length + m1, b0.mem.length + m2, pairs.length - m1, pairs.length - m2,
    hrun, hchain, hcurr1, hcurr2, haddr m1 hm1, haddr m2 hm2, by omega, by omega⟩

/-- C20 on the scenario `init; prepare(A); finalize(10); prepare(B); finalize(20)` with the
queries 5 and 15. -/
theorem C20_reads_monotone_witness :
    ∃ (b : Bundle) (l : List (Addr × BundleEntry)) (a1 a2 i1 i2 : Nat),
      Bundle.run exampleSentinels 4 (Bundle.init exampleSentinels Bundle.fresh)
        (commitCalls [(some 1, 10), (some 2, 20)]) = .ok () b ∧
      b.chain 4 = some l ∧
      Bundle.getPtrByTimestamp_curr exampleSentinels 4 b 5 = .ok (some a1) b ∧
      Bundle.getPtrByTimestamp_curr exampleSentinels 4 b 15 = .ok (some a2) b ∧
      l[i1]?.map Prod.fst = some a1 ∧ l[i2]?.map Prod.fst = some a2 ∧
      i2 ≤ i1 ∧ a1 ≤ a2 :=
  C20_reads_monotone exampleSentinels Bundle.fresh [(some 1, 10), (some 2, 20)] 4 (by decide)
    (by simp [RealTimestamps, exampleSentinels]) (by simp [StrictlyIncreasing]) (by decide)
    5 15 (by decide)

end BundleLinked
